import Mathlib

/-!
Verification of the on-call schedule service (Go repository
`1995parham-learning/oncall-schedule`) against its design specification.

The development shallowly embeds the repository's core logic:

* `MemoryStorage.*` — the volatile (in-memory) schedule store of
  `internal/storage/storage.go` (`AddSchedule`, `GetTeam`, `GetCurrentOncall`).
* `Handler.*` — the boundary layer of `internal/handler/handler.go`
  (`CreateSchedule` with `validateRequest`, `parseWeekday`, kitchen-clock
  time parsing, and the `GetSchedule` lookup).
* `PostgresStorage.*` — the durable (PostgreSQL) store: the relational
  tables it maintains, its transactional `AddSchedule` multi-row write
  path, `GetTeam`, and the rotation-joining `GetCurrentOncall` query.

Go `time.Time` values are compared here through the clock data that the
source actually inspects.  Every comparison in the source first rebuilds
both sides with `time.Date` on the query instant's own calendar date and
location, so two such values compare exactly by their
(hour, minute, second, nanosecond) clock tuples; `TimeOfDay` captures that
tuple and `Instant` an instant as observed in its own offset (weekday plus
clock tuple).
-/

/-- Day of week exactly as Go's `time.Weekday` (`Sunday = 0` … `Saturday = 6`). -/
inductive Weekday where
  | sunday
  | monday
  | tuesday
  | wednesday
  | thursday
  | friday
  | saturday
deriving DecidableEq

/-- `int(d)` for Go's `time.Weekday`. -/
def Weekday.toNat : Weekday → Nat
  | .sunday => 0
  | .monday => 1
  | .tuesday => 2
  | .wednesday => 3
  | .thursday => 4
  | .friday => 5
  | .saturday => 6

/-- `time.Weekday(n)` for the integers the durable store persists. -/
def Weekday.ofInt : Nat → Weekday
  | 0 => .sunday
  | 1 => .monday
  | 2 => .tuesday
  | 3 => .wednesday
  | 4 => .thursday
  | 5 => .friday
  | _ => .saturday

/-- Go's `time.Weekday.String()` names, used by `parseWeekday`. -/
def Weekday.gostring : Weekday → String
  | .sunday => "Sunday"
  | .monday => "Monday"
  | .tuesday => "Tuesday"
  | .wednesday => "Wednesday"
  | .thursday => "Thursday"
  | .friday => "Friday"
  | .saturday => "Saturday"

/-- The iteration order of `parseWeekday`'s loop: `time.Sunday` through
`time.Saturday`. -/
def weekdayRange : List Weekday :=
  [.sunday, .monday, .tuesday, .wednesday, .thursday, .friday, .saturday]

/-- The clock components of a Go `time.Time` (hour, minute, second,
nanosecond).  All time comparisons in the source happen between values
rebuilt by `time.Date` on one shared calendar date and location, so they
compare exactly by this tuple. -/
structure TimeOfDay where
  hour : Nat
  minute : Nat
  sec : Nat
  nsec : Nat
deriving DecidableEq

/-- Total nanoseconds since midnight; `time.Time.After/Before/Equal` on two
values sharing a calendar date and location order exactly by this number. -/
def TimeOfDay.toNanos (t : TimeOfDay) : Nat :=
  ((t.hour * 60 + t.minute) * 60 + t.sec) * 1000000000 + t.nsec

/-- `a.Before(b)` for same-date, same-location values. -/
def todBefore (a b : TimeOfDay) : Bool :=
  a.toNanos < b.toNanos

/-- `a.After(b)` for same-date, same-location values. -/
def todAfter (a b : TimeOfDay) : Bool :=
  b.toNanos < a.toNanos

/-- `a.Equal(b)` for same-date, same-location values. -/
def todEqual (a b : TimeOfDay) : Bool :=
  a.toNanos == b.toNanos

/-- Seconds since midnight: the granularity of `Format("15:04:05")`, which
the durable store uses for both its persisted window bounds and the query
instant (nanoseconds are truncated away). -/
def TimeOfDay.secOfDay (t : TimeOfDay) : Nat :=
  t.hour * 3600 + t.minute * 60 + t.sec

/-- A query instant as observed in its own offset: its weekday
(`at.Weekday()`) and its clock tuple (`at.Hour()`, `at.Minute()`,
`at.Second()`, `at.Nanosecond()`).  The calendar date and the offset itself
are abstracted away because every comparison in the source rebuilds both
sides on this instant's own date and location. -/
structure Instant where
  weekday : Weekday
  tod : TimeOfDay
deriving DecidableEq

/-- `storage.Schedule`: name, ordered member sequence, active weekdays and
the daily window bounds (Go `time.Time` values of which only the clock
components are ever read). -/
structure Schedule where
  Name : String
  Members : List String
  Days : List Weekday
  Start : TimeOfDay
  End : TimeOfDay
deriving DecidableEq

/-- `storage.Team`: a team is its list of schedules. -/
structure Team where
  Schedules : List Schedule
deriving DecidableEq

/-- The Go zero value `Team{}` returned by a missing map lookup. -/
def Team.zero : Team := ⟨[]⟩

/-- The backing map `map[string]Team` of `MemoryStorage` (absent key ↦
`none`; Go's map read yields the zero `Team` plus `ok = false`). -/
def MemoryState := String → Option Team

/-- `NewMemoryStorage()`: an empty backing map. -/
def MemoryStorage.new : MemoryState := fun _ => none

/-- The schedules currently stored for a team (the zero `Team` when the
team is absent, exactly as Go's map read). -/
def memTeamScheds (s : MemoryState) (team : String) : List Schedule :=
  ((s team).getD Team.zero).Schedules

/-- `MemoryStorage.AddSchedule`: read the (possibly zero) `Team`, append
the schedule, store it back; always returns a nil error. -/
def MemoryStorage.AddSchedule (s : MemoryState) (team : String) (schedule : Schedule) :
    MemoryState × Option String :=
  (fun k => if k = team then some ⟨memTeamScheds s team ++ [schedule]⟩ else s k, none)

/-- `MemoryStorage.GetTeam`: map lookup, found flag, nil error. -/
def MemoryStorage.GetTeam (s : MemoryState) (team : String) :
    Team × Bool × Option String :=
  match s team with
  | some t => (t, true, none)
  | none => (Team.zero, false, none)

/-- The day check of `MemoryStorage.GetCurrentOncall`: the inner loop over
`sched.Days` comparing each day against `at.Weekday()`. -/
def dayMatches (days : List Weekday) (d : Weekday) : Bool :=
  days.contains d

/-- The window check of `MemoryStorage.GetCurrentOncall`.  With `schedTime`,
`schedStart` and `schedEnd` all rebuilt by `time.Date` on the instant's date
and location, the Go condition
`schedTime.After(schedStart) && schedTime.Before(schedEnd) || schedTime.Equal(schedStart)`
(Go precedence: `&&` binds tighter than `||`) becomes the following; note
the end bound is strict while an instant equal to the start matches. -/
def memWindowHit (sched : Schedule) (tod : TimeOfDay) : Bool :=
  let schedStart : TimeOfDay := ⟨sched.Start.hour, sched.Start.minute, sched.Start.sec, 0⟩
  let schedEnd : TimeOfDay := ⟨sched.End.hour, sched.End.minute, sched.End.sec, 0⟩
  (todAfter tod schedStart && todBefore tod schedEnd) || todEqual tod schedStart

/-- One iteration's test in `MemoryStorage.GetCurrentOncall`: day match and
window match. -/
def memSchedMatch (sched : Schedule) (at' : Instant) : Bool :=
  dayMatches sched.Days at'.weekday && memWindowHit sched at'.tod

/-- The schedule loop of `MemoryStorage.GetCurrentOncall`: on a day-and-window
match with a non-empty member list return `Members[0]`; a matching schedule
with no members is passed over and the loop continues. -/
def memOncallLoop : List Schedule → Instant → String × Bool × Option String
  | [], _ => ("", false, none)
  | sched :: rest, at' =>
    if memSchedMatch sched at' then
      match sched.Members with
      | m :: _ => (m, true, none)
      | [] => memOncallLoop rest at'
    else memOncallLoop rest at'

/-- `MemoryStorage.GetCurrentOncall`: unknown team is not-found with nil
error, otherwise the schedule loop. -/
def MemoryStorage.GetCurrentOncall (s : MemoryState) (team : String) (at' : Instant) :
    String × Bool × Option String :=
  match s team with
  | none => ("", false, none)
  | some t => memOncallLoop t.Schedules at'

/-- `GetCurrentOncall` acquires only the read lock and performs no store
mutation; the backing map after a resolution query is the map before it. -/
def memQueryStep (s : MemoryState) (_q : String × Instant) : MemoryState :=
  s

/-- The first schedule of a list that a query instant matches and that has
a non-empty member sequence (the schedule `GetCurrentOncall` resolves). -/
def firstResolvable (scheds : List Schedule) (at' : Instant) : Option Schedule :=
  scheds.find? (fun sched => memSchedMatch sched at' && !sched.Members.isEmpty)

/-! ### The HTTP handler (`internal/handler/handler.go`)

Transport concerns (JSON binding, missing `team`/`time` query parameters,
RFC3339 parsing of the query instant) are elided: the embedded handler
receives the already-bound request or the already-parsed instant, which is
where every claim about it lives. -/

/-- `handler.Request`: the schedule-creation request body. -/
structure Request where
  Name : String
  Team : String
  Members : List String
  Days : List String
  Start : String
  End : String
deriving DecidableEq

/-- Outcome of `Handler.CreateSchedule`: 201 Created, or 400 with the
error message. -/
inductive CreateResp where
  | created
  | badRequest (msg : String)
deriving DecidableEq

/-- Outcome of `Handler.GetSchedule`: 200 with the JSON payload (the
matched schedule's member list), 404, or 400. -/
inductive GetResp where
  | ok (members : List String)
  | badRequest (msg : String)
  | notFound (msg : String)
deriving DecidableEq

/-- `strings.EqualFold` restricted to the ASCII weekday names it is applied
to: case-insensitive equality. -/
def eqFold (a b : String) : Bool :=
  a.toLower == b.toLower

/-- `parseWeekday`: scan `time.Sunday` through `time.Saturday` for a
case-insensitive name match; `none` models the error return. -/
def parseWeekday (day : String) : Option Weekday :=
  weekdayRange.find? (fun wd => eqFold day wd.gostring)

/-- Value of a decimal digit character. -/
def digitVal (c : Char) : Nat :=
  c.toNat - 48

/-- `time.Parse(time.Kitchen, s)` with layout `"3:04PM"`: one or two hour
digits (value at most 12), a colon, exactly two minute digits (value at
most 59), an uppercase `AM`/`PM`, nothing trailing; `PM` adds twelve to
hours below twelve and `12AM` is midnight.  The parsed `time.Time` carries
only this clock data (seconds and nanoseconds zero). -/
def parseKitchen (s : String) : Option TimeOfDay :=
  match s.toList with
  | c1 :: rest =>
    if c1.isDigit then
      let (hourv, rest') :=
        match rest with
        | c2 :: rest2 =>
          if c2.isDigit then (digitVal c1 * 10 + digitVal c2, rest2)
          else (digitVal c1, rest)
        | [] => (digitVal c1, ([] : List Char))
      match rest' with
      | ':' :: m1 :: m2 :: rest'' =>
        if m1.isDigit && m2.isDigit then
          let minutev := digitVal m1 * 10 + digitVal m2
          if hourv ≤ 12 && minutev ≤ 59 then
            match rest'' with
            | ['P', 'M'] =>
              some ⟨if hourv < 12 then hourv + 12 else hourv, minutev, 0, 0⟩
            | ['A', 'M'] =>
              some ⟨if hourv = 12 then 0 else hourv, minutev, 0, 0⟩
            | _ => none
          else none
        else none
      | _ => none
    else none
  | [] => none

/-- `Handler.validateRequest`: required-field checks, in source order,
each naming its rule. -/
def Handler.validateRequest (req : Request) : Option String :=
  if req.Team = "" then some "team is required"
  else if req.Members.length = 0 then some "at least one member is required"
  else if req.Days.length = 0 then some "at least one day is required"
  else if req.Start = "" then some "start time is required"
  else if req.End = "" then some "end time is required"
  else none

/-- The day-parsing loop of `Handler.CreateSchedule`: parse each day string
in order, failing at the first unparsable one with its message. -/
def parseDays : List String → Except String (List Weekday)
  | [] => .ok []
  | d :: rest =>
    match parseWeekday d with
    | none => .error ("invalid day: " ++ d)
    | some wd =>
      match parseDays rest with
      | .error e => .error e
      | .ok wds => .ok (wd :: wds)

/-- `Handler.CreateSchedule` after JSON binding: validate, parse days,
parse both kitchen times, require start strictly before end, and only then
call `storage.AddSchedule`.  Returns the response together with the store
state after the call, so an unchanged state witnesses that the store was
never touched. -/
def Handler.CreateSchedule (store : MemoryState) (req : Request) :
    CreateResp × MemoryState :=
  match Handler.validateRequest req with
  | some msg => (.badRequest msg, store)
  | none =>
    match parseDays req.Days with
    | .error msg => (.badRequest msg, store)
    | .ok days =>
      match parseKitchen req.Start with
      | none => (.badRequest "invalid start time format, use '3:04PM' format", store)
      | some start =>
        match parseKitchen req.End with
        | none => (.badRequest "invalid end time format, use '3:04PM' format", store)
        | some endt =>
          if !todBefore start endt then
            (.badRequest "start time must be before end time", store)
          else
            (.created, (MemoryStorage.AddSchedule store req.Team
              ⟨req.Name, req.Members, days, start, endt⟩).1)

/-- Every error message `Handler.CreateSchedule` can produce for a given
request; each names the violated rule. -/
def ruleMessages (req : Request) : List String :=
  ["team is required", "at least one member is required",
   "at least one day is required", "start time is required",
   "end time is required",
   "invalid start time format, use '3:04PM' format",
   "invalid end time format, use '3:04PM' format",
   "start time must be before end time"] ++
  req.Days.map (fun d => "invalid day: " ++ d)

/-- The window check of `Handler.GetSchedule`: `startTime`/`endTime` are
rebuilt from the schedule's hour and minute (seconds and nanoseconds zero)
on the instant's date and location, and the instant matches the closed
interval
`(askTime.After(startTime) || askTime.Equal(startTime)) && (askTime.Before(endTime) || askTime.Equal(endTime))`. -/
def handlerWindowHit (sched : Schedule) (tod : TimeOfDay) : Bool :=
  let startTime : TimeOfDay := ⟨sched.Start.hour, sched.Start.minute, 0, 0⟩
  let endTime : TimeOfDay := ⟨sched.End.hour, sched.End.minute, 0, 0⟩
  (todAfter tod startTime || todEqual tod startTime) &&
    (todBefore tod endTime || todEqual tod endTime)

/-- The schedule loop of `Handler.GetSchedule`: the first schedule whose
day set contains the instant's weekday and whose window (closed on both
ends) contains it answers 200 with `schedule.Members` — the whole member
list. -/
def handlerFindLoop : List Schedule → Instant → GetResp
  | [], _ => .notFound "no schedule found for the given time"
  | sched :: rest, at' =>
    if !sched.Days.contains at'.weekday then handlerFindLoop rest at'
    else if handlerWindowHit sched at'.tod then .ok sched.Members
    else handlerFindLoop rest at'

/-- `Handler.GetSchedule` after query-parameter handling: empty team is
400, unknown team 404, otherwise the schedule loop. -/
def Handler.GetSchedule (store : MemoryState) (team : String) (askTime : Instant) :
    GetResp :=
  if team = "" then .badRequest "team query parameter is required"
  else
    match store team with
    | none => .notFound "team not found"
    | some teamData => handlerFindLoop teamData.Schedules askTime

/-! ### The durable store (`PostgresStorage`)

The relational state the durable variant maintains is modelled as explicit
tables (row lists in insertion order) plus one id sequence.  Each SQL
statement of `AddSchedule` is one step of a transaction: steps are numbered
in execution order and an injected fault set (`faults`) decides which
statement fails, modelling the underlying store's possible faults; on any
failing statement the operation returns the original database (the
transaction begun at the start rolls back — `defer tx.Rollback`), and the
working database becomes visible only at the single `Commit` at the end. -/

/-- A `teams` row. -/
structure TeamRow where
  id : Nat
  name : String
deriving DecidableEq

/-- A `users` row. -/
structure UserRow where
  id : Nat
  username : String
  email : String
deriving DecidableEq

/-- A `team_members` row. -/
structure TeamMemberRow where
  teamId : Nat
  userId : Nat
  role : String
deriving DecidableEq

/-- A `schedules` row; `start_time`/`end_time` are persisted through
`Format("15:04:05")`, keeping hour, minute and second only. -/
structure ScheduleRow where
  id : Nat
  teamId : Nat
  name : String
  startTime : TimeOfDay
  endTime : TimeOfDay
  timezone : String
deriving DecidableEq

/-- A `schedule_days` row. -/
structure ScheduleDayRow where
  scheduleId : Nat
  dayOfWeek : Nat
deriving DecidableEq

/-- A `schedule_members` row: one member of a schedule at its rotation
position. -/
structure ScheduleMemberRow where
  scheduleId : Nat
  userId : Nat
  position : Nat
deriving DecidableEq

/-- A `rotations` row: the persisted rotation state of one schedule
(`last_rotation_at`, a wall-clock timestamp never read back by any
operation in scope, is omitted). -/
structure RotationRow where
  scheduleId : Nat
  currentUserId : Option Nat
  currentPosition : Nat
deriving DecidableEq

/-- The durable store's database. -/
structure DB where
  teams : List TeamRow
  users : List UserRow
  teamMembers : List TeamMemberRow
  schedules : List ScheduleRow
  scheduleDays : List ScheduleDayRow
  scheduleMembers : List ScheduleMemberRow
  rotations : List RotationRow
  nextId : Nat
deriving DecidableEq

/-- A freshly migrated, empty database (serial ids start at 1). -/
def DB.empty : DB := ⟨[], [], [], [], [], [], [], 1⟩

/-- Truncation of a window bound through `Format("15:04:05")`. -/
def trunc (t : TimeOfDay) : TimeOfDay :=
  ⟨t.hour, t.minute, t.sec, 0⟩

/-- `INSERT INTO teams … ON CONFLICT (name) DO UPDATE … RETURNING id`):
reuse the existing row's id or insert a fresh row. -/
def pgUpsertTeam (teamName : String) (db : DB) : DB × Nat :=
  match db.teams.find? (fun t => t.name == teamName) with
  | some t => (db, t.id)
  | none =>
    ({ db with teams := db.teams ++ [⟨db.nextId, teamName⟩], nextId := db.nextId + 1 },
     db.nextId)

/-- `INSERT INTO users … ON CONFLICT (username) DO UPDATE … RETURNING id`
with `member` as username and `member@example.com` as email. -/
def pgUpsertUser (member : String) (db : DB) : DB × Nat :=
  match db.users.find? (fun u => u.username == member) with
  | some u => (db, u.id)
  | none =>
    ({ db with
        users := db.users ++ [⟨db.nextId, member, member ++ "@example.com"⟩],
        nextId := db.nextId + 1 },
     db.nextId)

/-- `INSERT INTO team_members … ON CONFLICT (team_id, user_id) DO NOTHING`. -/
def pgLinkMember (teamId userId : Nat) (db : DB) : DB × Unit :=
  if db.teamMembers.any (fun tm => tm.teamId == teamId && tm.userId == userId) then (db, ())
  else ({ db with teamMembers := db.teamMembers ++ [⟨teamId, userId, "member"⟩] }, ())

/-- `INSERT INTO schedules … RETURNING id`. -/
def pgInsertSchedule (teamId : Nat) (schedule : Schedule) (db : DB) : DB × Nat :=
  ({ db with
     schedules := db.schedules ++
       [⟨db.nextId, teamId, schedule.Name, trunc schedule.Start, trunc schedule.End, "UTC"⟩],
     nextId := db.nextId + 1 },
   db.nextId)

/-- One `INSERT INTO schedule_days` statement. -/
def pgInsertDay (scheduleId : Nat) (day : Weekday) (db : DB) : DB × Unit :=
  ({ db with scheduleDays := db.scheduleDays ++ [⟨scheduleId, day.toNat⟩] }, ())

/-- One `INSERT INTO schedule_members` statement. -/
def pgInsertMember (scheduleId userId position : Nat) (db : DB) : DB × Unit :=
  ({ db with scheduleMembers := db.scheduleMembers ++ [⟨scheduleId, userId, position⟩] }, ())

/-- The `rotations` initialization statement: position 0, pointing at the
given (first member's) user id. -/
def pgInsertRotation (scheduleId firstUserId : Nat) (db : DB) : DB × Unit :=
  ({ db with rotations := db.rotations ++ [⟨scheduleId, some firstUserId, 0⟩] }, ())

/-- An in-flight transaction: the working database plus the index of the
next statement to execute. -/
structure Tx where
  db : DB
  ctr : Nat

/-- Execute one SQL statement inside the transaction: it fails iff the
fault set contains its index, otherwise applies its write and returns its
result. -/
def runStmt {α : Type} (faults : Nat → Bool) (tx : Tx) (stmt : DB → DB × α)
    (msg : String) : Except String (Tx × α) :=
  if faults tx.ctr then .error msg
  else
    let (db', a) := stmt tx.db
    .ok (⟨db', tx.ctr + 1⟩, a)

/-- The member loop of `PostgresStorage.AddSchedule`: upsert each member's
user row and link it to the team, collecting the `userIDs` map (an
association list keyed by member name, exactly the lookups the Go map
serves). -/
def pgAddMembers (faults : Nat → Bool) (teamId : Nat) :
    List String → Tx → Except String (Tx × List (String × Nat))
  | [], tx => .ok (tx, [])
  | member :: rest, tx => do
    let (tx, uid) ← runStmt faults tx (pgUpsertUser member)
      ("failed to get/create user " ++ member)
    let (tx, _) ← runStmt faults tx (pgLinkMember teamId uid) "failed to add user to team"
    let (tx, ids) ← pgAddMembers faults teamId rest tx
    .ok (tx, (member, uid) :: ids)

/-- The day loop of `PostgresStorage.AddSchedule`. -/
def pgAddDays (faults : Nat → Bool) (scheduleId : Nat) :
    List Weekday → Tx → Except String Tx
  | [], tx => .ok tx
  | day :: rest, tx => do
    let (tx, _) ← runStmt faults tx (pgInsertDay scheduleId day) "failed to insert schedule day"
    pgAddDays faults scheduleId rest tx

/-- The ordered member-position loop of `PostgresStorage.AddSchedule`
(`for position, member := range schedule.Members`); a member missing from
the `userIDs` map would read Go's zero value 0. -/
def pgAddPositions (faults : Nat → Bool) (scheduleId : Nat) (userIds : List (String × Nat)) :
    Nat → List String → Tx → Except String Tx
  | _, [], tx => .ok tx
  | position, member :: rest, tx => do
    let (tx, _) ← runStmt faults tx
      (pgInsertMember scheduleId ((userIds.lookup member).getD 0) position)
      "failed to insert schedule member"
    pgAddPositions faults scheduleId userIds (position + 1) rest tx

/-- The transaction body of `PostgresStorage.AddSchedule`, statements in
source order: team upsert, per-member user upsert and team link, schedule
row, day rows, ordered member-position rows, rotation initialization (only
when the member list is non-empty), and the final `Commit` (itself a
fallible step). -/
def pgAddScheduleTx (faults : Nat → Bool) (db : DB) (teamName : String)
    (schedule : Schedule) : Except String Tx := do
  let (tx, teamId) ← runStmt faults ⟨db, 0⟩ (pgUpsertTeam teamName) "failed to get/create team"
  let (tx, userIds) ← pgAddMembers faults teamId schedule.Members tx
  let (tx, scheduleId) ← runStmt faults tx (pgInsertSchedule teamId schedule)
    "failed to insert schedule"
  let tx ← pgAddDays faults scheduleId schedule.Days tx
  let tx ← pgAddPositions faults scheduleId userIds 0 schedule.Members tx
  let tx ←
    if schedule.Members.length > 0 then do
      let (tx, _) ← runStmt faults tx
        (pgInsertRotation scheduleId ((userIds.lookup (schedule.Members.headD "")).getD 0))
        "failed to initialize rotation"
      pure tx
    else pure tx
  let (tx, _) ← runStmt faults tx (fun d => (d, ())) "failed to commit transaction"
  .ok tx

/-- `PostgresStorage.AddSchedule`: on any failing statement the whole
transaction rolls back and the visible database is the original one; only
a committed transaction's working database becomes visible. -/
def PostgresStorage.AddSchedule (faults : Nat → Bool) (db : DB) (teamName : String)
    (schedule : Schedule) : DB × Option String :=
  match pgAddScheduleTx faults db teamName schedule with
  | .error e => (db, some e)
  | .ok tx => (tx.db, none)

/-- The fault-free oracle: no statement fails. -/
def noFault : Nat → Bool := fun _ => false

/-- Days of one schedule, `ORDER BY day_of_week`. -/
def pgSchedDays (db : DB) (scheduleId : Nat) : List Weekday :=
  (((db.scheduleDays.filter (fun d => d.scheduleId == scheduleId)).map
      (fun d => d.dayOfWeek)).mergeSort (fun a b => a ≤ b)).map Weekday.ofInt

/-- Members of one schedule, `ORDER BY position`, joined to `users` for the
username (a dangling user id contributes Go's zero string). -/
def pgSchedMembers (db : DB) (scheduleId : Nat) : List String :=
  (((db.scheduleMembers.filter (fun m => m.scheduleId == scheduleId)).mergeSort
      (fun a b => a.position ≤ b.position)).map
    (fun m => ((db.users.find? (fun u => u.id == m.userId)).map UserRow.username).getD ""))

/-- `PostgresStorage.GetTeam`: unknown team is `(zero, false, nil)`; a
known team's schedules are reassembled from the schedule, day, member and
user tables. -/
def PostgresStorage.GetTeam (db : DB) (teamName : String) :
    Team × Bool × Option String :=
  match db.teams.find? (fun t => t.name == teamName) with
  | none => (Team.zero, false, none)
  | some trow =>
    (⟨(db.schedules.filter (fun s => s.teamId == trow.id)).map (fun s =>
        ⟨s.name, pgSchedMembers db s.id, pgSchedDays db s.id, s.startTime, s.endTime⟩)⟩,
     true, none)

/-- The window condition of the durable `GetCurrentOncall` query:
`s.start_time <= $3::time AND s.end_time >= $3::time`, at the second
granularity of `Format("15:04:05")` — closed on both ends. -/
def pgWindowHit (startTime endTime tod : TimeOfDay) : Bool :=
  decide (startTime.secOfDay ≤ tod.secOfDay) && decide (tod.secOfDay ≤ endTime.secOfDay)

/-- The join conditions of the durable `GetCurrentOncall` query that do not
mention the team: the schedule has a `schedule_days` row for the queried
weekday, a `rotations` row, and its window contains the queried time of
day. -/
def pgSchedActive (db : DB) (dow : Nat) (tod : TimeOfDay) (s : ScheduleRow) : Bool :=
  db.scheduleDays.any (fun d => d.scheduleId == s.id && d.dayOfWeek == dow) &&
  db.rotations.any (fun r => r.scheduleId == s.id) &&
  pgWindowHit s.startTime s.endTime tod

/-- `PostgresStorage.GetCurrentOncall`: find the team row; `LIMIT 1` over
the schedules ⋈ schedule_days ⋈ rotations join (modelled as the first
schedule row, in table order, that belongs to the team and is active at
the instant); read that schedule's rotation row and answer the username of
its `current_user_id`.  Unknown team, no joined row, or a NULL
`current_user_id` are all not-found with nil error. -/
def PostgresStorage.GetCurrentOncall (db : DB) (teamName : String) (at' : Instant) :
    String × Bool × Option String :=
  match db.teams.find? (fun t => t.name == teamName) with
  | none => ("", false, none)
  | some trow =>
    match db.schedules.find? (fun s =>
        s.teamId == trow.id && pgSchedActive db at'.weekday.toNat at'.tod s) with
    | none => ("", false, none)
    | some srow =>
      match db.rotations.find? (fun r => r.scheduleId == srow.id) with
      | none => ("", false, none)
      | some rrow =>
        match rrow.currentUserId with
        | none => ("", false, none)
        | some uid =>
          (((db.users.find? (fun u => u.id == uid)).map UserRow.username).getD "",
           true, none)

/-- A run of the volatile store: a sequence of `AddSchedule` calls against
a fresh `MemoryStorage`. -/
def memRun (ops : List (String × Schedule)) : MemoryState :=
  ops.foldl (fun s p => (MemoryStorage.AddSchedule s p.1 p.2).1) MemoryStorage.new

/-- A run of the durable store: a sequence of fault-free `AddSchedule`
calls against an empty database. -/
def pgRun (ops : List (String × Schedule)) : DB :=
  ops.foldl (fun db p => (PostgresStorage.AddSchedule noFault db p.1 p.2).1) DB.empty

/-! ### Fault-free specialization of the durable write path

`pgApply*` are the fault-free runs of the corresponding transaction loops,
used to reason about committed `AddSchedule` calls; they are proved equal
to the `faults = noFault` runs below. -/

/-- Fault-free member loop (user upserts plus team links, collecting the
`userIDs` association list). -/
def pgApplyMembers (teamId : Nat) : List String → DB → DB × List (String × Nat)
  | [], db => (db, [])
  | member :: rest, db =>
    let db1 := (pgUpsertUser member db).1
    let uid := (pgUpsertUser member db).2
    let db2 := (pgLinkMember teamId uid db1).1
    ((pgApplyMembers teamId rest db2).1, (member, uid) :: (pgApplyMembers teamId rest db2).2)

/-- Fault-free day loop. -/
def pgApplyDays (scheduleId : Nat) : List Weekday → DB → DB
  | [], db => db
  | day :: rest, db => pgApplyDays scheduleId rest (pgInsertDay scheduleId day db).1

/-- Fault-free ordered member-position loop. -/
def pgApplyPositions (scheduleId : Nat) (userIds : List (String × Nat)) :
    Nat → List String → DB → DB
  | _, [], db => db
  | position, member :: rest, db =>
    pgApplyPositions scheduleId userIds (position + 1) rest
      (pgInsertMember scheduleId ((userIds.lookup member).getD 0) position db).1

/-- The rows the ordered member-position loop appends. -/
def posRows (scheduleId : Nat) (userIds : List (String × Nat)) :
    Nat → List String → List ScheduleMemberRow
  | _, [] => []
  | position, member :: rest =>
    ⟨scheduleId, (userIds.lookup member).getD 0, position⟩ ::
      posRows scheduleId userIds (position + 1) rest

/-- The database a committed (fault-free) `AddSchedule` call produces. -/
def pgApply (db : DB) (teamName : String) (schedule : Schedule) : DB :=
  let teamId := (pgUpsertTeam teamName db).2
  let db1 := (pgUpsertTeam teamName db).1
  let userIds := (pgApplyMembers teamId schedule.Members db1).2
  let db2 := (pgApplyMembers teamId schedule.Members db1).1
  let scheduleId := (pgInsertSchedule teamId schedule db2).2
  let db3 := (pgInsertSchedule teamId schedule db2).1
  let db4 := pgApplyDays scheduleId schedule.Days db3
  let db5 := pgApplyPositions scheduleId userIds 0 schedule.Members db4
  if schedule.Members.length > 0 then
    (pgInsertRotation scheduleId ((userIds.lookup (schedule.Members.headD "")).getD 0) db5).1
  else db5

/-- Well-formedness of the durable database, maintained by every run of
fault-free `AddSchedule` calls from the empty database: user ids are
pairwise distinct, and user ids and the schedule ids referenced by
rotation rows all lie below the id sequence. -/
structure DB.WF (db : DB) : Prop where
  users_nodup : (db.users.map UserRow.id).Nodup
  users_lt : ∀ u ∈ db.users, u.id < db.nextId
  rotations_lt : ∀ r ∈ db.rotations, r.scheduleId < db.nextId

/-- Rotation-state initialization invariant: every persisted rotation row
sits at position 0 and its designated user is exactly the user of that
schedule's position-0 member row. -/
def RotationInit (db : DB) : Prop :=
  ∀ r ∈ db.rotations, r.currentPosition = 0 ∧
    ∃ mrow ∈ db.scheduleMembers, mrow.scheduleId = r.scheduleId ∧
      mrow.position = 0 ∧ r.currentUserId = some mrow.userId

/-- Complete visibility of one schedule after a committed `AddSchedule`:
its team row, its schedule row with the persisted window bounds, a day row
per weekday, a user row per member, a member row at every rotation
position, and (for a non-empty member list) its rotation-state row at
position 0. -/
def scheduleFullyVisible (db : DB) (teamName : String) (sched : Schedule) : Prop :=
  ∃ trow ∈ db.teams, trow.name = teamName ∧
    ∃ srow ∈ db.schedules, srow.teamId = trow.id ∧ srow.name = sched.Name ∧
      srow.startTime = trunc sched.Start ∧ srow.endTime = trunc sched.End ∧
      (∀ d ∈ sched.Days, (⟨srow.id, d.toNat⟩ : ScheduleDayRow) ∈ db.scheduleDays) ∧
      (∀ m ∈ sched.Members, ∃ u ∈ db.users, u.username = m) ∧
      (∀ i < sched.Members.length, ∃ mrow ∈ db.scheduleMembers,
        mrow.scheduleId = srow.id ∧ mrow.position = i) ∧
      (sched.Members ≠ [] → ∃ rrow ∈ db.rotations,
        rrow.scheduleId = srow.id ∧ rrow.currentPosition = 0)

/-! ### Concrete fixtures (the test suite's data) -/

/-- The tests' weekday schedule: Alice, Bob, Charlie on Monday–Friday,
9:00AM–5:00PM. -/
def exSched : Schedule :=
  ⟨"Weekday Coverage", ["Alice", "Bob", "Charlie"],
   [.monday, .tuesday, .wednesday, .thursday, .friday], ⟨9, 0, 0, 0⟩, ⟨17, 0, 0, 0⟩⟩

/-- A volatile store holding only `exSched` under `backend-team`. -/
def exStore : MemoryState :=
  (MemoryStorage.AddSchedule MemoryStorage.new "backend-team" exSched).1

/-- Monday 10:00 (as observed in the instant's own offset). -/
def exMonday10 : Instant := ⟨.monday, ⟨10, 0, 0, 0⟩⟩

/-- Monday 17:00 — exactly the end of `exSched`'s window. -/
def exMonday17 : Instant := ⟨.monday, ⟨17, 0, 0, 0⟩⟩

/-- Monday 9:00 — exactly the start of `exSched`'s window. -/
def exMonday9 : Instant := ⟨.monday, ⟨9, 0, 0, 0⟩⟩

/-- The tests' defensively-created schedule with an empty member list. -/
def emptySched : Schedule :=
  ⟨"Empty Schedule", [], [.monday], ⟨9, 0, 0, 0⟩, ⟨17, 0, 0, 0⟩⟩

/-- A second Monday schedule with one member, overlapping `emptySched`. -/
def schedBob : Schedule :=
  ⟨"Backup", ["Bob"], [.monday], ⟨9, 0, 0, 0⟩, ⟨17, 0, 0, 0⟩⟩

/-- A store whose first matching schedule has no members and whose second
matching schedule is `schedBob`. -/
def storeEmptyFirst : MemoryState :=
  (MemoryStorage.AddSchedule
    (MemoryStorage.AddSchedule MemoryStorage.new "ops" emptySched).1 "ops" schedBob).1

/-- An earlier overlapping schedule owned by Xavier. -/
def schedX : Schedule := ⟨"First", ["Xavier"], [.monday], ⟨9, 0, 0, 0⟩, ⟨17, 0, 0, 0⟩⟩

/-- A later overlapping schedule owned by Yara. -/
def schedY : Schedule := ⟨"Second", ["Yara"], [.monday], ⟨10, 0, 0, 0⟩, ⟨16, 0, 0, 0⟩⟩

/-- A store holding `schedX` and then `schedY` for team `ops`. -/
def storeXY : MemoryState :=
  (MemoryStorage.AddSchedule
    (MemoryStorage.AddSchedule MemoryStorage.new "ops" schedX).1 "ops" schedY).1

/-- Monday noon, inside both `schedX`'s and `schedY`'s windows. -/
def exMonday12 : Instant := ⟨.monday, ⟨12, 0, 0, 0⟩⟩

/-- A creation request with an empty member list. -/
def emptyMembersReq : Request :=
  ⟨"Schedule", "team", [], ["Monday"], "9:00AM", "5:00PM"⟩

/-- A fault set failing the very first statement (the team upsert). -/
def faultAt0 : Nat → Bool := fun n => n == 0

/-- A store whose only schedule for `ops` is the empty-membered one. -/
def storeOnlyEmpty : MemoryState :=
  (MemoryStorage.AddSchedule MemoryStorage.new "ops" emptySched).1

/-! ## Helper lemmas: the volatile store -/

theorem foldl_memQueryStep (s : MemoryState) (qs : List (String × Instant)) :
    qs.foldl memQueryStep s = s := by
  induction qs with
  | nil => rfl
  | cons q rest ih => simpa [List.foldl_cons, memQueryStep] using ih

theorem memOncallLoop_skip (at' : Instant) (pre rest : List Schedule)
    (h : ∀ p ∈ pre, memSchedMatch p at' = true → p.Members = []) :
    memOncallLoop (pre ++ rest) at' = memOncallLoop rest at' := by
  induction pre with
  | nil => rfl
  | cons p pre ih =>
    by_cases hm : memSchedMatch p at' = true
    · have hp : p.Members = [] := h p (List.mem_cons_self p pre) hm
      simp only [List.cons_append, memOncallLoop, hm, if_true, hp]
      exact ih (fun q hq hqm => h q (List.mem_cons_of_mem p hq) hqm)
    · simp only [List.cons_append, memOncallLoop, hm, if_false]
      exact ih (fun q hq hqm => h q (List.mem_cons_of_mem p hq) hqm)

theorem memOncallLoop_spec (scheds : List Schedule) (at' : Instant) :
    memOncallLoop scheds at' =
      match firstResolvable scheds at' with
      | some sched => (sched.Members.headD "", true, none)
      | none => ("", false, none) := by
  induction scheds with
  | nil => rfl
  | cons sched rest ih =>
    cases hm : memSchedMatch sched at' with
    | true =>
      cases hM : sched.Members with
      | nil =>
        simp only [memOncallLoop, hm, if_true, hM, firstResolvable, List.find?_cons,
          List.isEmpty_nil, Bool.not_true, Bool.and_false]
        exact ih
      | cons m tl =>
        simp [memOncallLoop, hm, hM, firstResolvable, List.find?_cons]
    | false =>
      simp only [memOncallLoop, hm, Bool.false_eq_true, if_false, firstResolvable,
        List.find?_cons, Bool.false_and]
      exact ih

/-! ## Helper lemmas: the durable store -/

theorem runStmt_noFault {α : Type} (tx : Tx) (stmt : DB → DB × α) (msg : String) :
    runStmt noFault tx stmt msg = .ok (⟨(stmt tx.db).1, tx.ctr + 1⟩, (stmt tx.db).2) := by
  simp [runStmt, noFault]

theorem pgUpsertTeam_frame (t : String) (db : DB) :
    (pgUpsertTeam t db).1.users = db.users ∧
    (pgUpsertTeam t db).1.teamMembers = db.teamMembers ∧
    (pgUpsertTeam t db).1.schedules = db.schedules ∧
    (pgUpsertTeam t db).1.scheduleDays = db.scheduleDays ∧
    (pgUpsertTeam t db).1.scheduleMembers = db.scheduleMembers ∧
    (pgUpsertTeam t db).1.rotations = db.rotations ∧
    db.nextId ≤ (pgUpsertTeam t db).1.nextId := by
  unfold pgUpsertTeam
  cases db.teams.find? (fun r => r.name == t) <;> simp

theorem pgUpsertUser_frame (m : String) (db : DB) :
    (pgUpsertUser m db).1.teams = db.teams ∧
    (pgUpsertUser m db).1.teamMembers = db.teamMembers ∧
    (pgUpsertUser m db).1.schedules = db.schedules ∧
    (pgUpsertUser m db).1.scheduleDays = db.scheduleDays ∧
    (pgUpsertUser m db).1.scheduleMembers = db.scheduleMembers ∧
    (pgUpsertUser m db).1.rotations = db.rotations ∧
    db.nextId ≤ (pgUpsertUser m db).1.nextId := by
  unfold pgUpsertUser
  cases db.users.find? (fun u => u.username == m) <;> simp

theorem pgLinkMember_frame (teamId userId : Nat) (db : DB) :
    (pgLinkMember teamId userId db).1.teams = db.teams ∧
    (pgLinkMember teamId userId db).1.users = db.users ∧
    (pgLinkMember teamId userId db).1.schedules = db.schedules ∧
    (pgLinkMember teamId userId db).1.scheduleDays = db.scheduleDays ∧
    (pgLinkMember teamId userId db).1.scheduleMembers = db.scheduleMembers ∧
    (pgLinkMember teamId userId db).1.rotations = db.rotations ∧
    (pgLinkMember teamId userId db).1.nextId = db.nextId := by
  unfold pgLinkMember
  by_cases h : db.teamMembers.any
      (fun tm => tm.teamId == teamId && tm.userId == userId) = true <;> simp [h]

theorem pgApplyMembers_frame (teamId : Nat) (ms : List String) : ∀ (db : DB),
    (pgApplyMembers teamId ms db).1.teams = db.teams ∧
    (pgApplyMembers teamId ms db).1.schedules = db.schedules ∧
    (pgApplyMembers teamId ms db).1.scheduleDays = db.scheduleDays ∧
    (pgApplyMembers teamId ms db).1.scheduleMembers = db.scheduleMembers ∧
    (pgApplyMembers teamId ms db).1.rotations = db.rotations ∧
    db.nextId ≤ (pgApplyMembers teamId ms db).1.nextId := by
  induction ms with
  | nil => intro db; simp [pgApplyMembers]
  | cons m rest ih =>
    intro db
    have hu := pgUpsertUser_frame m db
    have hl := pgLinkMember_frame teamId (pgUpsertUser m db).2 (pgUpsertUser m db).1
    have hr := ih (pgLinkMember teamId (pgUpsertUser m db).2 (pgUpsertUser m db).1).1
    simp only [pgApplyMembers]
    refine ⟨?_, ?_, ?_, ?_, ?_, ?_⟩
    · rw [hr.1, hl.1, hu.1]
    · rw [hr.2.1, hl.2.2.1, hu.2.2.1]
    · rw [hr.2.2.1, hl.2.2.2.1, hu.2.2.2.1]
    · rw [hr.2.2.2.1, hl.2.2.2.2.1, hu.2.2.2.2.1]
    · rw [hr.2.2.2.2.1, hl.2.2.2.2.2.1, hu.2.2.2.2.2.1]
    · calc db.nextId ≤ (pgUpsertUser m db).1.nextId := hu.2.2.2.2.2.2
        _ = _ := (hl.2.2.2.2.2.2).symm
        _ ≤ _ := hr.2.2.2.2.2

theorem pgApplyDays_spec (scheduleId : Nat) (days : List Weekday) : ∀ (db : DB),
    pgApplyDays scheduleId days db =
      { db with scheduleDays :=
          db.scheduleDays ++ days.map (fun d => ⟨scheduleId, d.toNat⟩) } := by
  induction days with
  | nil => intro db; simp [pgApplyDays]
  | cons d rest ih =>
    intro db
    simp [pgApplyDays, pgInsertDay, ih]

theorem pgApplyPositions_spec (scheduleId : Nat) (userIds : List (String × Nat))
    (ms : List String) : ∀ (position : Nat) (db : DB),
    pgApplyPositions scheduleId userIds position ms db =
      { db with scheduleMembers :=
          db.scheduleMembers ++ posRows scheduleId userIds position ms } := by
  induction ms with
  | nil => intro position db; simp [pgApplyPositions, posRows]
  | cons m rest ih =>
    intro position db
    simp [pgApplyPositions, pgInsertMember, posRows, ih]

theorem pgAddMembers_noFault (teamId : Nat) (ms : List String) : ∀ (tx : Tx),
    pgAddMembers noFault teamId ms tx =
      .ok (⟨(pgApplyMembers teamId ms tx.db).1, tx.ctr + 2 * ms.length⟩,
        (pgApplyMembers teamId ms tx.db).2) := by
  induction ms with
  | nil => intro tx; simp [pgAddMembers, pgApplyMembers]
  | cons m rest ih =>
    intro tx
    simp only [pgAddMembers, runStmt_noFault, bind, Except.bind, ih, pgApplyMembers,
      Except.ok.injEq, Prod.mk.injEq, Tx.mk.injEq, List.length_cons]
    exact ⟨⟨trivial, by omega⟩, trivial⟩

theorem pgAddDays_noFault (scheduleId : Nat) (days : List Weekday) : ∀ (tx : Tx),
    pgAddDays noFault scheduleId days tx =
      .ok ⟨pgApplyDays scheduleId days tx.db, tx.ctr + days.length⟩ := by
  induction days with
  | nil => intro tx; simp [pgAddDays, pgApplyDays]
  | cons d rest ih =>
    intro tx
    simp only [pgAddDays, runStmt_noFault, bind, Except.bind, ih, pgApplyDays,
      Except.ok.injEq, Tx.mk.injEq, List.length_cons]
    exact ⟨trivial, by omega⟩

theorem pgAddPositions_noFault (scheduleId : Nat) (userIds : List (String × Nat))
    (ms : List String) : ∀ (position : Nat) (tx : Tx),
    pgAddPositions noFault scheduleId userIds position ms tx =
      .ok ⟨pgApplyPositions scheduleId userIds position ms tx.db, tx.ctr + ms.length⟩ := by
  induction ms with
  | nil => intro position tx; simp [pgAddPositions, pgApplyPositions]
  | cons m rest ih =>
    intro position tx
    simp only [pgAddPositions, runStmt_noFault, bind, Except.bind, ih, pgApplyPositions,
      Except.ok.injEq, Tx.mk.injEq, List.length_cons]
    exact ⟨trivial, by omega⟩

theorem pgAddScheduleTx_noFault (db : DB) (t : String) (sch : Schedule) :
    ∃ n, pgAddScheduleTx noFault db t sch = .ok ⟨pgApply db t sch, n⟩ := by
  by_cases h : sch.Members.length > 0
  · refine ⟨0 + 1 + 2 * sch.Members.length + 1 + sch.Days.length +
      sch.Members.length + 1 + 1, ?_⟩
    simp only [pgAddScheduleTx, runStmt_noFault, bind, Except.bind, pure, Except.pure,
      pgAddMembers_noFault, pgAddDays_noFault, pgAddPositions_noFault, h, if_true, pgApply]
  · refine ⟨0 + 1 + 2 * sch.Members.length + 1 + sch.Days.length +
      sch.Members.length + 1, ?_⟩
    simp only [pgAddScheduleTx, runStmt_noFault, bind, Except.bind, pure, Except.pure,
      pgAddMembers_noFault, pgAddDays_noFault, pgAddPositions_noFault, h, if_false, pgApply]

theorem addSchedule_noFault (db : DB) (t : String) (sch : Schedule) :
    PostgresStorage.AddSchedule noFault db t sch = (pgApply db t sch, none) := by
  obtain ⟨n, h⟩ := pgAddScheduleTx_noFault db t sch
  simp [PostgresStorage.AddSchedule, h]

/-! ## Claims about the volatile store and the handler -/

/-- C1 (counterexample): the boundary claim fails on the volatile store.
For the test schedule (Monday–Friday, 9:00–17:00, members Alice/Bob/
Charlie) and the instant Monday 17:00 — exactly the end of the window, on
an active day — the handler's `GetSchedule` and the durable store both
treat the instant as inside the window, but the volatile
`MemoryStorage.GetCurrentOncall` answers not-found: its end bound is
exclusive, so the closed-interval-on-both-ends claim is false for it. -/
theorem c1_end_boundary_counterexample :
    Weekday.monday ∈ exSched.Days ∧
    Handler.GetSchedule exStore "backend-team" exMonday17 =
      GetResp.ok ["Alice", "Bob", "Charlie"] ∧
    PostgresStorage.GetCurrentOncall (pgRun [("backend-team", exSched)])
      "backend-team" exMonday17 = ("Alice", true, none) ∧
    MemoryStorage.GetCurrentOncall exStore "backend-team" exMonday17 =
      ("", false, none) := by
  refine ⟨by decide, by decide, by decide, by decide⟩

/-- C2 (code evaluated at the failing input): for the stored test schedule
and the matching instant Monday 10:00, the handler's `GetSchedule` success
response is the matched schedule's whole member list (three names), not
the single currently on-call identity that the spec — and the handler's
own test, which expects `{"oncall": "Alice"}` — require. -/
theorem c2_handler_returns_whole_member_list :
    Handler.GetSchedule exStore "backend-team" exMonday10 =
      GetResp.ok ["Alice", "Bob", "Charlie"] := by
  decide

/-- C3 (counterexample): a team whose first time-window-matching schedule
has an empty member sequence need not resolve to not-found: the empty
schedule is merely skipped, and here the second matching schedule resolves
to Bob. -/
theorem c3_first_empty_still_resolves_counterexample :
    memTeamScheds storeEmptyFirst "ops" = [emptySched, schedBob] ∧
    memSchedMatch emptySched exMonday10 = true ∧
    emptySched.Members = [] ∧
    MemoryStorage.GetCurrentOncall storeEmptyFirst "ops" exMonday10 =
      ("Bob", true, none) := by
  refine ⟨by decide, by decide, rfl, by decide⟩

/-- C3 (amended): a matching schedule with no members never resolves — it
is skipped — so whenever every matching schedule of the team has an empty
member sequence the volatile `GetCurrentOncall` answers not-found with a
nil error; and the durable `AddSchedule` creates no rotation row for a
schedule with an empty member list. -/
theorem c3_empty_members_never_resolve :
    (∀ (s : MemoryState) (team : String) (at' : Instant),
      (∀ sched ∈ memTeamScheds s team, memSchedMatch sched at' = true → sched.Members = []) →
      MemoryStorage.GetCurrentOncall s team at' = ("", false, none)) ∧
    (∀ (db : DB) (team : String) (sched : Schedule), sched.Members = [] →
      ((PostgresStorage.AddSchedule noFault db team sched).1).rotations = db.rotations) := by
  constructor
  · intro s team at' h
    unfold MemoryStorage.GetCurrentOncall
    cases hs : s team with
    | none => rfl
    | some t =>
      have h' : ∀ p ∈ t.Schedules, memSchedMatch p at' = true → p.Members = [] := by
        intro p hp hm
        exact h p (by simpa [memTeamScheds, hs] using hp) hm
      have := memOncallLoop_skip at' t.Schedules [] h'
      simpa using this
  · intro db team sched hM
    rw [addSchedule_noFault]
    have hlen : ¬sched.Members.length > 0 := by simp [hM]
    simp only [pgApply, if_neg hlen, pgApplyPositions_spec, pgApplyDays_spec,
      pgInsertSchedule]
    simp only [(pgApplyMembers_frame _ _ _).2.2.2.2.1,
      (pgUpsertTeam_frame _ _).2.2.2.2.2.1]

/-- C3 witness: the concrete all-matching-schedules-empty store resolves
to not-found, and adding the concrete empty-membered schedule to the empty
database creates no rotation row. -/
theorem c3_witness :
    MemoryStorage.GetCurrentOncall storeOnlyEmpty "ops" exMonday10 = ("", false, none) ∧
    ((PostgresStorage.AddSchedule noFault DB.empty "ops" emptySched).1).rotations =
      DB.empty.rotations :=
  ⟨c3_empty_members_never_resolve.1 storeOnlyEmpty "ops" exMonday10 (by decide),
   c3_empty_members_never_resolve.2 DB.empty "ops" emptySched rfl⟩

/-- C4: volatile resolution is stateless first-member.  Whatever resolution
queries were executed before (the query fold), a query whose team exists
and whose schedule list has a first matching schedule with members resolves
to that schedule's `Members[0]`. -/
theorem c4_stateless_first_member (s : MemoryState) (qs : List (String × Instant))
    (team : String) (at' : Instant) (t : Team) (sched : Schedule)
    (h1 : s team = some t)
    (h2 : firstResolvable t.Schedules at' = some sched) :
    MemoryStorage.GetCurrentOncall (qs.foldl memQueryStep s) team at' =
      (sched.Members.headD "", true, none) := by
  rw [foldl_memQueryStep]
  simp only [MemoryStorage.GetCurrentOncall, h1]
  rw [memOncallLoop_spec, h2]

/-- C4 witness: after two prior resolution queries the test store still
resolves Monday 10:00 to the first member of the stored schedule. -/
theorem c4_witness :
    MemoryStorage.GetCurrentOncall
      (([("backend-team", exMonday10), ("backend-team", exMonday17)]).foldl
        memQueryStep exStore)
      "backend-team" exMonday10 = (exSched.Members.headD "", true, none) :=
  c4_stateless_first_member exStore _ "backend-team" exMonday10 ⟨[exSched]⟩ exSched
    (by decide) (by decide)

/-- C6 (counterexample): read-after-write fails in its
`GetCurrentOncall` clause.  After adding `schedY` (member Yara) to a team
already holding the overlapping `schedX` (member Xavier), the instant
Monday 12:00 matches `schedY`, yet resolution answers Xavier — not a
member of `schedY`. -/
theorem c6_overlap_counterexample :
    storeXY = (MemoryStorage.AddSchedule
      (MemoryStorage.AddSchedule MemoryStorage.new "ops" schedX).1 "ops" schedY).1 ∧
    memSchedMatch schedY exMonday12 = true ∧
    schedY.Members = ["Yara"] ∧
    MemoryStorage.GetCurrentOncall storeXY "ops" exMonday12 =
      ("Xavier", true, none) := by
  refine ⟨rfl, by decide, rfl, by decide⟩

/-- C6 (amended): after `AddSchedule(team, S)` succeeds, `GetTeam(team)`
reports found and lists `S`; and `GetCurrentOncall(team, T)` for an
instant matching `S` returns a member of `S` provided `S` has members and
no earlier-stored schedule of the team both matches `T` and has members
(first match wins across overlapping schedules). -/
theorem c6_read_after_write (s : MemoryState) (team : String) (S : Schedule)
    (T : Instant) :
    (MemoryStorage.GetTeam (MemoryStorage.AddSchedule s team S).1 team).2.1 = true ∧
    S ∈ (MemoryStorage.GetTeam (MemoryStorage.AddSchedule s team S).1 team).1.Schedules ∧
    (memSchedMatch S T = true → S.Members ≠ [] →
      (∀ p ∈ memTeamScheds s team, memSchedMatch p T = true → p.Members = []) →
      ∃ m ∈ S.Members,
        MemoryStorage.GetCurrentOncall (MemoryStorage.AddSchedule s team S).1 team T =
          (m, true, none)) := by
  have hmap : (MemoryStorage.AddSchedule s team S).1 team =
      some ⟨memTeamScheds s team ++ [S]⟩ := by
    simp [MemoryStorage.AddSchedule]
  refine ⟨?_, ?_, ?_⟩
  · simp [MemoryStorage.GetTeam, hmap]
  · simp [MemoryStorage.GetTeam, hmap]
  · intro hm hne hpre
    obtain ⟨m, tl, hM⟩ : ∃ m tl, S.Members = m :: tl := by
      cases hMm : S.Members with
      | nil => exact absurd hMm hne
      | cons a b => exact ⟨a, b, rfl⟩
    refine ⟨m, by simp [hM], ?_⟩
    simp only [MemoryStorage.GetCurrentOncall, hmap]
    rw [memOncallLoop_skip T _ [S] hpre]
    simp [memOncallLoop, hm, hM]

/-- C6 witness: adding Bob's schedule to a fresh store resolves a matching
Monday instant to a member of that schedule. -/
theorem c6_witness :
    ∃ m ∈ schedBob.Members,
      MemoryStorage.GetCurrentOncall
        (MemoryStorage.AddSchedule MemoryStorage.new "ops" schedBob).1 "ops" exMonday10 =
        (m, true, none) :=
  (c6_read_after_write MemoryStorage.new "ops" schedBob exMonday10).2.2
    (by decide) (by decide) (by decide)

/-- C10: `MemoryStorage.AddSchedule` mutates only the named team's entry —
every other team reads back unchanged, and the named team's list becomes
its previous list with the new schedule appended last. -/
theorem c10_addschedule_frame (s : MemoryState) (team : String) (sched : Schedule)
    (k : String) :
    (k ≠ team → MemoryStorage.GetTeam (MemoryStorage.AddSchedule s team sched).1 k =
      MemoryStorage.GetTeam s k) ∧
    (MemoryStorage.GetTeam (MemoryStorage.AddSchedule s team sched).1 team).1.Schedules =
      (MemoryStorage.GetTeam s team).1.Schedules ++ [sched] := by
  constructor
  · intro hk
    have : (MemoryStorage.AddSchedule s team sched).1 k = s k := by
      simp [MemoryStorage.AddSchedule, hk]
    simp only [MemoryStorage.GetTeam, this]
  · have hmap : (MemoryStorage.AddSchedule s team sched).1 team =
        some ⟨memTeamScheds s team ++ [sched]⟩ := by
      simp [MemoryStorage.AddSchedule]
    simp only [MemoryStorage.GetTeam, hmap]
    cases hs : s team with
    | none => simp [memTeamScheds, hs, Team.zero]
    | some t => simp [memTeamScheds, hs]

/-- C10 witness: adding a schedule for `ops` leaves team `other` exactly as
it was. -/
theorem c10_witness :
    MemoryStorage.GetTeam (MemoryStorage.AddSchedule MemoryStorage.new "ops" schedBob).1
      "other" = MemoryStorage.GetTeam MemoryStorage.new "other" :=
  (c10_addschedule_frame MemoryStorage.new "ops" schedBob "other").1 (by decide)

/-! ## Helper lemmas: request validation -/

theorem validateRequest_some_mem (req : Request) (msg : String)
    (h : Handler.validateRequest req = some msg) : msg ∈ ruleMessages req := by
  unfold Handler.validateRequest at h
  split_ifs at h <;>
    · obtain rfl : _ = msg := Option.some.inj h
      exact List.mem_append_left _ (by decide)

theorem validateRequest_none (req : Request) (h : Handler.validateRequest req = none) :
    req.Team ≠ "" ∧ req.Members ≠ [] ∧ req.Days ≠ [] ∧
      req.Start ≠ "" ∧ req.End ≠ "" := by
  unfold Handler.validateRequest at h
  split_ifs at h <;> simp_all [List.length_eq_zero]

theorem parseDays_error_mem (ds : List String) (msg : String)
    (h : parseDays ds = .error msg) : ∃ d ∈ ds, msg = "invalid day: " ++ d := by
  induction ds with
  | nil => exact Except.noConfusion h
  | cons d rest ih =>
    unfold parseDays at h
    cases hw : parseWeekday d with
    | none =>
      simp only [hw] at h
      injection h with h'
      exact ⟨d, List.mem_cons_self d rest, h'.symm⟩
    | some wd =>
      simp only [hw] at h
      cases hr : parseDays rest with
      | error e =>
        simp only [hr] at h
        injection h with h'
        subst h'
        obtain ⟨d', hd', he'⟩ := ih hr
        exact ⟨d', List.mem_cons_of_mem d hd', he'⟩
      | ok wds =>
        simp only [hr] at h
        exact Except.noConfusion h

theorem parseDays_ok_forall (ds : List String) (wds : List Weekday)
    (h : parseDays ds = .ok wds) : ∀ d ∈ ds, parseWeekday d ≠ none := by
  induction ds generalizing wds with
  | nil => intro d hd; cases hd
  | cons d0 rest ih =>
    intro d hd
    unfold parseDays at h
    cases hw : parseWeekday d0 with
    | none => rw [hw] at h; exact Except.noConfusion h
    | some wd =>
      rw [hw] at h
      cases hr : parseDays rest with
      | error e => rw [hr] at h; exact Except.noConfusion h
      | ok wds' =>
        rcases List.mem_cons.mp hd with rfl | hd'
        · simp [hw]
        · exact ih wds' hr d hd'

theorem createSchedule_cases (store : MemoryState) (req : Request) :
    (∃ msg, Handler.CreateSchedule store req = (.badRequest msg, store) ∧
      msg ∈ ruleMessages req) ∨
    (Handler.validateRequest req = none ∧
      ∃ days start endt, parseDays req.Days = .ok days ∧
        parseKitchen req.Start = some start ∧ parseKitchen req.End = some endt ∧
        todBefore start endt = true ∧
        Handler.CreateSchedule store req =
          (.created, (MemoryStorage.AddSchedule store req.Team
            ⟨req.Name, req.Members, days, start, endt⟩).1)) := by
  cases hv : Handler.validateRequest req with
  | some msg =>
    exact Or.inl ⟨msg, by simp [Handler.CreateSchedule, hv],
      validateRequest_some_mem req msg hv⟩
  | none =>
    cases hd : parseDays req.Days with
    | error msg =>
      refine Or.inl ⟨msg, by simp [Handler.CreateSchedule, hv, hd], ?_⟩
      obtain ⟨d, hdm, rfl⟩ := parseDays_error_mem req.Days msg hd
      exact List.mem_append_right _ (List.mem_map_of_mem _ hdm)
    | ok days =>
      cases hs : parseKitchen req.Start with
      | none =>
        exact Or.inl ⟨"invalid start time format, use '3:04PM' format",
          by simp [Handler.CreateSchedule, hv, hd, hs],
          List.mem_append_left _ (by decide)⟩
      | some start =>
        cases he : parseKitchen req.End with
        | none =>
          exact Or.inl ⟨"invalid end time format, use '3:04PM' format",
            by simp [Handler.CreateSchedule, hv, hd, hs, he],
            List.mem_append_left _ (by decide)⟩
        | some endt =>
          cases hb : todBefore start endt with
          | false =>
            exact Or.inl ⟨"start time must be before end time",
              by simp [Handler.CreateSchedule, hv, hd, hs, he, hb],
              List.mem_append_left _ (by decide)⟩
          | true =>
            exact Or.inr ⟨rfl, days, start, endt, rfl, rfl, rfl, hb,
              by simp [Handler.CreateSchedule, hv, hd, hs, he, hb]⟩

/-- C7: every validation failure of schedule creation — empty member list,
empty day set, unparsable day, unparsable start or end time, or start not
strictly before end — makes `CreateSchedule` answer a 400 whose message
names the violated rule, with the store state unchanged (the store is
never invoked). -/
theorem c7_validation_before_store (store : MemoryState) (req : Request)
    (h : req.Members = [] ∨ req.Days = [] ∨ (∃ d ∈ req.Days, parseWeekday d = none) ∨
      parseKitchen req.Start = none ∨ parseKitchen req.End = none ∨
      (∃ s' e', parseKitchen req.Start = some s' ∧ parseKitchen req.End = some e' ∧
        todBefore s' e' = false)) :
    ∃ msg, Handler.CreateSchedule store req = (CreateResp.badRequest msg, store) ∧
      msg ∈ ruleMessages req := by
  rcases createSchedule_cases store req with hbad | ⟨hv, days, start, endt, hd, hs, he, hb, _⟩
  · exact hbad
  · exfalso
    have hvr := validateRequest_none req hv
    rcases h with h | h | ⟨d, hdm, hdn⟩ | h | h | ⟨s', e', hs', he', hb'⟩
    · exact hvr.2.1 h
    · exact hvr.2.2.1 h
    · exact (parseDays_ok_forall _ _ hd d hdm) hdn
    · rw [h] at hs; exact Option.noConfusion hs
    · rw [h] at he; exact Option.noConfusion he
    · rw [hs] at hs'
      rw [he] at he'
      obtain rfl : start = s' := Option.some.inj hs'
      obtain rfl : endt = e' := Option.some.inj he'
      rw [hb] at hb'
      exact Bool.noConfusion hb'

/-- C7 witness: the concrete empty-member request is rejected with its
rule's message and the fresh store is untouched. -/
theorem c7_witness :
    ∃ msg, Handler.CreateSchedule MemoryStorage.new emptyMembersReq =
      (CreateResp.badRequest msg, MemoryStorage.new) ∧
      msg ∈ ruleMessages emptyMembersReq :=
  c7_validation_before_store MemoryStorage.new emptyMembersReq (Or.inl rfl)

/-! ## Helper lemmas: characterizing a committed durable write -/

theorem pgApplyMembers_teams (teamId : Nat) (ms : List String) (db : DB) :
    (pgApplyMembers teamId ms db).1.teams = db.teams :=
  (pgApplyMembers_frame teamId ms db).1

theorem pgApplyMembers_schedules (teamId : Nat) (ms : List String) (db : DB) :
    (pgApplyMembers teamId ms db).1.schedules = db.schedules :=
  (pgApplyMembers_frame teamId ms db).2.1

theorem pgApplyMembers_scheduleDays (teamId : Nat) (ms : List String) (db : DB) :
    (pgApplyMembers teamId ms db).1.scheduleDays = db.scheduleDays :=
  (pgApplyMembers_frame teamId ms db).2.2.1

theorem pgApplyMembers_scheduleMembers (teamId : Nat) (ms : List String) (db : DB) :
    (pgApplyMembers teamId ms db).1.scheduleMembers = db.scheduleMembers :=
  (pgApplyMembers_frame teamId ms db).2.2.2.1

theorem pgApplyMembers_rotations (teamId : Nat) (ms : List String) (db : DB) :
    (pgApplyMembers teamId ms db).1.rotations = db.rotations :=
  (pgApplyMembers_frame teamId ms db).2.2.2.2.1

theorem pgApplyMembers_nextId_le (teamId : Nat) (ms : List String) (db : DB) :
    db.nextId ≤ (pgApplyMembers teamId ms db).1.nextId :=
  (pgApplyMembers_frame teamId ms db).2.2.2.2.2

/-- The tables other than `teams` that `pgApply` leaves or extends, all in
one place: the teams table of a committed write is the upserted one. -/
theorem pgApply_teams (db : DB) (t : String) (sch : Schedule) :
    (pgApply db t sch).teams = (pgUpsertTeam t db).1.teams := by
  unfold pgApply
  by_cases h : sch.Members.length > 0 <;>
    simp [h, pgInsertRotation, pgApplyPositions_spec, pgApplyDays_spec, pgInsertSchedule,
      pgApplyMembers_teams]

/-- The schedules table of a committed write: the old table plus exactly
the one new schedule row. -/
theorem pgApply_schedules (db : DB) (t : String) (sch : Schedule) :
    (pgApply db t sch).schedules =
      db.schedules ++
        [⟨(pgApplyMembers (pgUpsertTeam t db).2 sch.Members (pgUpsertTeam t db).1).1.nextId,
          (pgUpsertTeam t db).2, sch.Name, trunc sch.Start, trunc sch.End, "UTC"⟩] := by
  unfold pgApply
  by_cases h : sch.Members.length > 0 <;>
    simp [h, pgInsertRotation, pgApplyPositions_spec, pgApplyDays_spec, pgInsertSchedule,
      pgApplyMembers_schedules, (pgUpsertTeam_frame t db).2.2.1]

/-- The day table of a committed write: the old table plus one row per
weekday of the new schedule. -/
theorem pgApply_scheduleDays (db : DB) (t : String) (sch : Schedule) :
    (pgApply db t sch).scheduleDays =
      db.scheduleDays ++
        sch.Days.map (fun d =>
          ⟨(pgApplyMembers (pgUpsertTeam t db).2 sch.Members (pgUpsertTeam t db).1).1.nextId,
           d.toNat⟩) := by
  unfold pgApply
  by_cases h : sch.Members.length > 0 <;>
    simp [h, pgInsertRotation, pgApplyPositions_spec, pgApplyDays_spec, pgInsertSchedule,
      pgApplyMembers_scheduleDays, (pgUpsertTeam_frame t db).2.2.2.1]

/-- The member-position table of a committed write. -/
theorem pgApply_scheduleMembers (db : DB) (t : String) (sch : Schedule) :
    (pgApply db t sch).scheduleMembers =
      db.scheduleMembers ++
        posRows (pgApplyMembers (pgUpsertTeam t db).2 sch.Members (pgUpsertTeam t db).1).1.nextId
          (pgApplyMembers (pgUpsertTeam t db).2 sch.Members (pgUpsertTeam t db).1).2
          0 sch.Members := by
  unfold pgApply
  by_cases h : sch.Members.length > 0 <;>
    simp [h, pgInsertRotation, pgApplyPositions_spec, pgApplyDays_spec, pgInsertSchedule,
      pgApplyMembers_scheduleMembers, (pgUpsertTeam_frame t db).2.2.2.2.1]

/-- The rotation table of a committed write: unchanged for an empty member
list, otherwise extended with exactly the position-0 row for the new
schedule, designating the looked-up id of the first member. -/
theorem pgApply_rotations (db : DB) (t : String) (sch : Schedule) :
    (pgApply db t sch).rotations =
      db.rotations ++
        (if sch.Members.length > 0 then
          [⟨(pgApplyMembers (pgUpsertTeam t db).2 sch.Members (pgUpsertTeam t db).1).1.nextId,
            some (((pgApplyMembers (pgUpsertTeam t db).2 sch.Members
              (pgUpsertTeam t db).1).2.lookup (sch.Members.headD "")).getD 0), 0⟩]
        else []) := by
  unfold pgApply
  by_cases h : sch.Members.length > 0 <;>
    simp [h, pgInsertRotation, pgApplyPositions_spec, pgApplyDays_spec, pgInsertSchedule,
      pgApplyMembers_rotations, (pgUpsertTeam_frame t db).2.2.2.2.2.1]

/-- The users table of a committed write is the member loop's. -/
theorem pgApply_users (db : DB) (t : String) (sch : Schedule) :
    (pgApply db t sch).users =
      (pgApplyMembers (pgUpsertTeam t db).2 sch.Members (pgUpsertTeam t db).1).1.users := by
  unfold pgApply
  by_cases h : sch.Members.length > 0 <;>
    simp [h, pgInsertRotation, pgApplyPositions_spec, pgApplyDays_spec, pgInsertSchedule]

/-- The id sequence after a committed write: one past the new schedule id. -/
theorem pgApply_nextId (db : DB) (t : String) (sch : Schedule) :
    (pgApply db t sch).nextId =
      (pgApplyMembers (pgUpsertTeam t db).2 sch.Members (pgUpsertTeam t db).1).1.nextId + 1 := by
  unfold pgApply
  by_cases h : sch.Members.length > 0 <;>
    simp [h, pgInsertRotation, pgApplyPositions_spec, pgApplyDays_spec, pgInsertSchedule]

theorem pgUpsertUser_sound (m : String) (db : DB) :
    ∃ u ∈ (pgUpsertUser m db).1.users,
      u.id = (pgUpsertUser m db).2 ∧ u.username = m := by
  unfold pgUpsertUser
  cases hf : db.users.find? (fun u => u.username == m) with
  | some u =>
    refine ⟨u, List.mem_of_find?_eq_some hf, rfl, ?_⟩
    have := List.find?_some hf
    exact eq_of_beq this
  | none =>
    exact ⟨⟨db.nextId, m, m ++ "@example.com"⟩, by simp, rfl, rfl⟩

theorem pgUpsertUser_users_shape (m : String) (db : DB) :
    ((pgUpsertUser m db).1.users = db.users ∧ (pgUpsertUser m db).1.nextId = db.nextId) ∨
    ((pgUpsertUser m db).1.users = db.users ++ [⟨db.nextId, m, m ++ "@example.com"⟩] ∧
      (pgUpsertUser m db).1.nextId = db.nextId + 1) := by
  unfold pgUpsertUser
  cases db.users.find? (fun u => u.username == m) with
  | some u => exact Or.inl ⟨rfl, rfl⟩
  | none => exact Or.inr ⟨rfl, rfl⟩

theorem pgUpsertUser_wf (m : String) (db : DB)
    (hn : (db.users.map UserRow.id).Nodup) (hlt : ∀ u ∈ db.users, u.id < db.nextId) :
    ((pgUpsertUser m db).1.users.map UserRow.id).Nodup ∧
      (∀ u ∈ (pgUpsertUser m db).1.users, u.id < (pgUpsertUser m db).1.nextId) := by
  rcases pgUpsertUser_users_shape m db with ⟨hu, hn'⟩ | ⟨hu, hn'⟩
  · rw [hu, hn']
    exact ⟨hn, hlt⟩
  · rw [hu, hn']
    constructor
    · simp only [List.map_append, List.map_cons, List.map_nil]
      rw [List.nodup_append]
      refine ⟨hn, List.nodup_singleton _, ?_⟩
      intro x hx hx1
      simp only [List.mem_singleton] at hx1
      obtain ⟨u, hu', rfl⟩ := List.mem_map.mp hx
      exact absurd hx1 (Nat.ne_of_lt (hlt u hu'))
    · intro u hu'
      rcases List.mem_append.mp hu' with h | h
      · exact Nat.lt_succ_of_lt (hlt u h)
      · simp only [List.mem_singleton] at h
        subst h
        exact Nat.lt_succ_self _

theorem pgApplyMembers_users_mono (teamId : Nat) (ms : List String) : ∀ (db : DB),
    ∀ u ∈ db.users, u ∈ (pgApplyMembers teamId ms db).1.users := by
  induction ms with
  | nil => intro db u hu; simpa [pgApplyMembers] using hu
  | cons m rest ih =>
    intro db u hu
    simp only [pgApplyMembers]
    apply ih
    rw [(pgLinkMember_frame teamId (pgUpsertUser m db).2 (pgUpsertUser m db).1).2.1]
    rcases pgUpsertUser_users_shape m db with ⟨he, _⟩ | ⟨he, _⟩
    · rw [he]; exact hu
    · rw [he]; exact List.mem_append_left _ hu

theorem pgApplyMembers_ids_sound (teamId : Nat) (ms : List String) : ∀ (db : DB),
    ∀ p ∈ (pgApplyMembers teamId ms db).2,
      ∃ u ∈ (pgApplyMembers teamId ms db).1.users, u.id = p.2 ∧ u.username = p.1 := by
  induction ms with
  | nil => intro db p hp; simp [pgApplyMembers] at hp
  | cons m rest ih =>
    intro db p hp
    simp only [pgApplyMembers, List.mem_cons] at hp
    rcases hp with rfl | hp
    · obtain ⟨u, hu, hid, hname⟩ := pgUpsertUser_sound m db
      refine ⟨u, ?_, hid, hname⟩
      simp only [pgApplyMembers]
      apply pgApplyMembers_users_mono
      rw [(pgLinkMember_frame teamId (pgUpsertUser m db).2 (pgUpsertUser m db).1).2.1]
      exact hu
    · obtain ⟨u, hu, hid, hname⟩ := ih _ p hp
      exact ⟨u, by simpa [pgApplyMembers] using hu, hid, hname⟩

theorem pgApplyMembers_ids_keys (teamId : Nat) (ms : List String) : ∀ (db : DB),
    ∀ m ∈ ms, ∃ uid, (m, uid) ∈ (pgApplyMembers teamId ms db).2 := by
  induction ms with
  | nil => intro db m hm; cases hm
  | cons m0 rest ih =>
    intro db m hm
    rcases List.mem_cons.mp hm with rfl | hm'
    · exact ⟨(pgUpsertUser m db).2, by simp [pgApplyMembers]⟩
    · obtain ⟨uid, huid⟩ := ih _ m hm'
      exact ⟨uid, by simp only [pgApplyMembers, List.mem_cons]; exact Or.inr huid⟩

theorem pgApplyMembers_ids_head (teamId : Nat) (m : String) (rest : List String) (db : DB) :
    ((pgApplyMembers teamId (m :: rest) db).2.lookup m) = some (pgUpsertUser m db).2 := by
  simp [pgApplyMembers, List.lookup]

theorem pgApplyMembers_wf (teamId : Nat) (ms : List String) : ∀ (db : DB),
    (db.users.map UserRow.id).Nodup → (∀ u ∈ db.users, u.id < db.nextId) →
    ((pgApplyMembers teamId ms db).1.users.map UserRow.id).Nodup ∧
      (∀ u ∈ (pgApplyMembers teamId ms db).1.users,
        u.id < (pgApplyMembers teamId ms db).1.nextId) := by
  induction ms with
  | nil => intro db hn hlt; exact ⟨hn, hlt⟩
  | cons m rest ih =>
    intro db hn hlt
    obtain ⟨hn1, hlt1⟩ := pgUpsertUser_wf m db hn hlt
    have hl := pgLinkMember_frame teamId (pgUpsertUser m db).2 (pgUpsertUser m db).1
    simp only [pgApplyMembers]
    apply ih
    · rw [hl.2.1]; exact hn1
    · rw [hl.2.1, hl.2.2.2.2.2.2]; exact hlt1

theorem find?_user_by_id (users : List UserRow)
    (hn : (users.map UserRow.id).Nodup) (u : UserRow) (hu : u ∈ users) :
    users.find? (fun x => x.id == u.id) = some u := by
  induction users with
  | nil => cases hu
  | cons v rest ih =>
    rcases List.mem_cons.mp hu with rfl | hu'
    · simp [List.find?_cons]
    · have hnodup : v.id ∉ rest.map UserRow.id ∧ (rest.map UserRow.id).Nodup := by
        rw [List.map_cons] at hn
        exact List.nodup_cons.mp hn
      have hne : (v.id == u.id) = false := by
        apply beq_eq_false_iff_ne.mpr
        intro he
        exact hnodup.1 (he ▸ List.mem_map_of_mem UserRow.id hu')
      rw [List.find?_cons, hne]
      exact ih hnodup.2 hu'

theorem posRows_positions (scheduleId : Nat) (userIds : List (String × Nat))
    (ms : List String) : ∀ (position i : Nat), i < ms.length →
    ∃ row ∈ posRows scheduleId userIds position ms,
      row.scheduleId = scheduleId ∧ row.position = position + i := by
  induction ms with
  | nil => intro position i hi; cases hi
  | cons m rest ih =>
    intro position i hi
    cases i with
    | zero => exact ⟨⟨scheduleId, (userIds.lookup m).getD 0, position⟩, by simp [posRows], rfl, rfl⟩
    | succ j =>
      obtain ⟨row, hrow, h1, h2⟩ := ih (position + 1) j (by simpa using Nat.lt_of_succ_lt_succ hi)
      refine ⟨row, by simp [posRows, hrow], h1, by omega⟩

theorem wf_empty : DB.empty.WF := by
  refine ⟨by simp [DB.empty], ?_, ?_⟩ <;> intro x hx <;> simp [DB.empty] at hx

theorem pgUpsertTeam_nextId_le (t : String) (db : DB) :
    db.nextId ≤ (pgUpsertTeam t db).1.nextId :=
  (pgUpsertTeam_frame t db).2.2.2.2.2.2

theorem wf_apply (db : DB) (t : String) (sch : Schedule) (h : db.WF) :
    (pgApply db t sch).WF := by
  have h1u := (pgUpsertTeam_frame t db).1
  have h1n := pgUpsertTeam_nextId_le t db
  have hwfm := pgApplyMembers_wf (pgUpsertTeam t db).2 sch.Members (pgUpsertTeam t db).1
    (by rw [h1u]; exact h.users_nodup)
    (by rw [h1u]; intro u hu; exact Nat.lt_of_lt_of_le (h.users_lt u hu) h1n)
  refine ⟨?_, ?_, ?_⟩
  · rw [pgApply_users]
    exact hwfm.1
  · rw [pgApply_users, pgApply_nextId]
    intro u hu
    exact Nat.lt_succ_of_lt (hwfm.2 u hu)
  · rw [pgApply_rotations, pgApply_nextId]
    intro r hr
    rcases List.mem_append.mp hr with hold | hnew
    · have : r.scheduleId < db.nextId := h.rotations_lt r hold
      have hle : db.nextId ≤
          (pgApplyMembers (pgUpsertTeam t db).2 sch.Members (pgUpsertTeam t db).1).1.nextId :=
        Nat.le_trans h1n (pgApplyMembers_nextId_le _ _ _)
      omega
    · by_cases hlen : sch.Members.length > 0
      · simp only [hlen, if_true, List.mem_singleton] at hnew
        subst hnew
        exact Nat.lt_succ_self _
      · simp [hlen] at hnew

theorem rotationInit_empty : RotationInit DB.empty := by
  intro r hr
  simp [DB.empty] at hr

theorem rotationInit_apply (db : DB) (t : String) (sch : Schedule)
    (h : RotationInit db) : RotationInit (pgApply db t sch) := by
  intro r hr
  rw [pgApply_rotations] at hr
  rcases List.mem_append.mp hr with hold | hnew
  · obtain ⟨h0, mrow, hm, h1, h2, h3⟩ := h r hold
    refine ⟨h0, mrow, ?_, h1, h2, h3⟩
    rw [pgApply_scheduleMembers]
    exact List.mem_append_left _ hm
  · by_cases hlen : sch.Members.length > 0
    · simp only [hlen, if_true, List.mem_singleton] at hnew
      subst hnew
      obtain ⟨m0, rest, hM⟩ : ∃ m0 rest, sch.Members = m0 :: rest := by
        cases hMm : sch.Members with
        | nil => rw [hMm] at hlen; simp at hlen
        | cons a b => exact ⟨a, b, rfl⟩
      refine ⟨rfl, ⟨(pgApplyMembers (pgUpsertTeam t db).2 sch.Members
        (pgUpsertTeam t db).1).1.nextId,
        (((pgApplyMembers (pgUpsertTeam t db).2 sch.Members
          (pgUpsertTeam t db).1).2.lookup (sch.Members.headD "")).getD 0), 0⟩, ?_, rfl, rfl, rfl⟩
      rw [pgApply_scheduleMembers]
      apply List.mem_append_right
      rw [hM]
      simp [posRows, hM]
    · simp [hlen] at hnew

theorem wf_run (ops : List (String × Schedule)) : (pgRun ops).WF ∧ RotationInit (pgRun ops) := by
  have main : ∀ (db : DB), db.WF → RotationInit db →
      (ops.foldl (fun db p => (PostgresStorage.AddSchedule noFault db p.1 p.2).1) db).WF ∧
      RotationInit (ops.foldl (fun db p => (PostgresStorage.AddSchedule noFault db p.1 p.2).1) db) := by
    induction ops with
    | nil => intro db h1 h2; exact ⟨h1, h2⟩
    | cons p rest ih =>
      intro db h1 h2
      rw [List.foldl_cons]
      have hstep : (PostgresStorage.AddSchedule noFault db p.1 p.2).1 = pgApply db p.1 p.2 := by
        rw [addSchedule_noFault]
      rw [hstep]
      exact ih _ (wf_apply db p.1 p.2 h1) (rotationInit_apply db p.1 p.2 h2)
  exact main DB.empty wf_empty rotationInit_empty

theorem pgUpsertTeam_teams_sub (t : String) (db : DB) :
    ∀ trow ∈ (pgUpsertTeam t db).1.teams, trow ∈ db.teams ∨ trow.name = t := by
  unfold pgUpsertTeam
  cases db.teams.find? (fun r => r.name == t) with
  | some r => intro trow h; exact Or.inl h
  | none =>
    intro trow h
    rcases List.mem_append.mp h with h | h
    · exact Or.inl h
    · simp only [List.mem_singleton] at h
      subst h
      exact Or.inr rfl

theorem memRun_absent (ops : List (String × Schedule)) (team : String)
    (h : ∀ p ∈ ops, p.1 ≠ team) : (memRun ops) team = none := by
  have main : ∀ (s : MemoryState), s team = none →
      (ops.foldl (fun s p => (MemoryStorage.AddSchedule s p.1 p.2).1) s) team = none := by
    induction ops with
    | nil => intro s hs; exact hs
    | cons p rest ih =>
      intro s hs
      rw [List.foldl_cons]
      apply ih (fun q hq => h q (List.mem_cons_of_mem p hq))
      simp only [MemoryStorage.AddSchedule]
      rw [if_neg (fun c => h p (List.mem_cons_self p rest) c.symm)]
      exact hs
  exact main MemoryStorage.new rfl

theorem pgRun_team_absent (ops : List (String × Schedule)) (team : String)
    (h : ∀ p ∈ ops, p.1 ≠ team) :
    ∀ trow ∈ (pgRun ops).teams, trow.name ≠ team := by
  have main : ∀ (db : DB), (∀ trow ∈ db.teams, trow.name ≠ team) →
      ∀ trow ∈ (ops.foldl (fun db p => (PostgresStorage.AddSchedule noFault db p.1 p.2).1)
        db).teams, trow.name ≠ team := by
    induction ops with
    | nil => intro db hdb; exact hdb
    | cons p rest ih =>
      intro db hdb
      rw [List.foldl_cons]
      have hstep : (PostgresStorage.AddSchedule noFault db p.1 p.2).1 = pgApply db p.1 p.2 := by
        rw [addSchedule_noFault]
      rw [hstep]
      apply ih (fun q hq => h q (List.mem_cons_of_mem p hq))
      intro trow htrow
      rw [pgApply_teams] at htrow
      rcases pgUpsertTeam_teams_sub p.1 db trow htrow with hold | hname
      · exact hdb trow hold
      · rw [hname]
        exact h p (List.mem_cons_self p rest)
  exact main DB.empty (by intro trow htrow; simp [DB.empty] at htrow)

/-- C9: for a team never named by any `AddSchedule` call, `GetTeam` and
`GetCurrentOncall` both answer found-flag `false` with a nil error — in
the volatile store and in the durable store alike. -/
theorem c9_unknown_team_not_found (ops : List (String × Schedule)) (team : String)
    (at' : Instant) (h : ∀ p ∈ ops, p.1 ≠ team) :
    MemoryStorage.GetTeam (memRun ops) team = (Team.zero, false, none) ∧
    MemoryStorage.GetCurrentOncall (memRun ops) team at' = ("", false, none) ∧
    PostgresStorage.GetTeam (pgRun ops) team = (Team.zero, false, none) ∧
    PostgresStorage.GetCurrentOncall (pgRun ops) team at' = ("", false, none) := by
  have hmem : (memRun ops) team = none := memRun_absent ops team h
  have hpg : (pgRun ops).teams.find? (fun t => t.name == team) = none := by
    apply List.find?_eq_none.mpr
    intro x hx
    simp only [Bool.not_eq_true, beq_eq_false_iff_ne]
    exact pgRun_team_absent ops team h x hx
  refine ⟨?_, ?_, ?_, ?_⟩
  · simp [MemoryStorage.GetTeam, hmem]
  · simp [MemoryStorage.GetCurrentOncall, hmem]
  · simp [PostgresStorage.GetTeam, hpg]
  · simp [PostgresStorage.GetCurrentOncall, hpg]

/-- C9 witness: a run that only ever adds schedules for `backend-team`
leaves team `ops` unknown to all four reads. -/
theorem c9_witness :
    MemoryStorage.GetTeam (memRun [("backend-team", exSched)]) "ops" =
      (Team.zero, false, none) ∧
    MemoryStorage.GetCurrentOncall (memRun [("backend-team", exSched)]) "ops" exMonday10 =
      ("", false, none) ∧
    PostgresStorage.GetTeam (pgRun [("backend-team", exSched)]) "ops" =
      (Team.zero, false, none) ∧
    PostgresStorage.GetCurrentOncall (pgRun [("backend-team", exSched)]) "ops" exMonday10 =
      ("", false, none) :=
  c9_unknown_team_not_found [("backend-team", exSched)] "ops" exMonday10 (by decide)

theorem pgUpsertTeam_find (t : String) (db : DB) :
    ∃ trow, (pgUpsertTeam t db).1.teams.find? (fun r => r.name == t) = some trow ∧
      trow.id = (pgUpsertTeam t db).2 := by
  unfold pgUpsertTeam
  cases hf : db.teams.find? (fun r => r.name == t) with
  | some r => exact ⟨r, by simp [hf], rfl⟩
  | none =>
    refine ⟨⟨db.nextId, t⟩, ?_, rfl⟩
    rw [List.find?_append, hf]
    simp

theorem pg_oncall_fresh (db : DB) (team : String) (sched : Schedule) (at' : Instant)
    (m0 : String) (rest : List String) (hwf : db.WF) (hM : sched.Members = m0 :: rest)
    (hday : at'.weekday ∈ sched.Days)
    (hwin : pgWindowHit (trunc sched.Start) (trunc sched.End) at'.tod = true)
    (hold : ∀ srow ∈ db.schedules,
      pgSchedActive (pgApply db team sched) at'.weekday.toNat at'.tod srow = false) :
    PostgresStorage.GetCurrentOncall (pgApply db team sched) team at' = (m0, true, none) := by
  obtain ⟨trow, hfindT, htrowid⟩ := pgUpsertTeam_find team db
  have hlen : sched.Members.length > 0 := by rw [hM]; simp
  have hfindT' : (pgApply db team sched).teams.find? (fun r => r.name == team) = some trow := by
    rw [pgApply_teams]; exact hfindT
  -- short names for the member-loop output and the fresh schedule id
  have hsid_ge : db.nextId ≤
      (pgApplyMembers (pgUpsertTeam team db).2 sched.Members (pgUpsertTeam team db).1).1.nextId :=
    Nat.le_trans (pgUpsertTeam_nextId_le team db) (pgApplyMembers_nextId_le _ _ _)
  -- the rotation table: old rows plus the fresh position-0 row
  have hrot : (pgApply db team sched).rotations =
      db.rotations ++
        [⟨(pgApplyMembers (pgUpsertTeam team db).2 sched.Members (pgUpsertTeam team db).1).1.nextId,
          some (((pgApplyMembers (pgUpsertTeam team db).2 sched.Members
            (pgUpsertTeam team db).1).2.lookup (sched.Members.headD "")).getD 0), 0⟩] := by
    rw [pgApply_rotations, if_pos hlen]
  -- the fresh rotation row is the first (and only) one with the fresh id
  have hfindR : (pgApply db team sched).rotations.find?
      (fun r => r.scheduleId ==
        (pgApplyMembers (pgUpsertTeam team db).2 sched.Members
          (pgUpsertTeam team db).1).1.nextId) =
      some ⟨(pgApplyMembers (pgUpsertTeam team db).2 sched.Members
          (pgUpsertTeam team db).1).1.nextId,
        some (((pgApplyMembers (pgUpsertTeam team db).2 sched.Members
          (pgUpsertTeam team db).1).2.lookup (sched.Members.headD "")).getD 0), 0⟩ := by
    rw [hrot, List.find?_append]
    have hleft : db.rotations.find?
        (fun r => r.scheduleId ==
          (pgApplyMembers (pgUpsertTeam team db).2 sched.Members
            (pgUpsertTeam team db).1).1.nextId) = none := by
      apply List.find?_eq_none.mpr
      intro r hr
      simp only [Bool.not_eq_true, beq_eq_false_iff_ne]
      have := hwf.rotations_lt r hr
      omega
    rw [hleft]
    simp
  -- the schedules table: old rows plus the fresh row
  have hscheds : (pgApply db team sched).schedules =
      db.schedules ++
        [⟨(pgApplyMembers (pgUpsertTeam team db).2 sched.Members
            (pgUpsertTeam team db).1).1.nextId,
          (pgUpsertTeam team db).2, sched.Name, trunc sched.Start, trunc sched.End, "UTC"⟩] :=
    pgApply_schedules db team sched
  -- the fresh schedule row is active at the instant
  have hactive : pgSchedActive (pgApply db team sched) at'.weekday.toNat at'.tod
      ⟨(pgApplyMembers (pgUpsertTeam team db).2 sched.Members
          (pgUpsertTeam team db).1).1.nextId,
        (pgUpsertTeam team db).2, sched.Name, trunc sched.Start, trunc sched.End, "UTC"⟩ =
      true := by
    unfold pgSchedActive
    simp only [Bool.and_eq_true]
    refine ⟨⟨?_, ?_⟩, ?_⟩
    · apply List.any_eq_true.mpr
      refine ⟨⟨(pgApplyMembers (pgUpsertTeam team db).2 sched.Members
          (pgUpsertTeam team db).1).1.nextId, at'.weekday.toNat⟩, ?_, by simp⟩
      rw [pgApply_scheduleDays]
      exact List.mem_append_right _ (List.mem_map_of_mem _ hday)
    · apply List.any_eq_true.mpr
      refine ⟨⟨(pgApplyMembers (pgUpsertTeam team db).2 sched.Members
          (pgUpsertTeam team db).1).1.nextId,
        some (((pgApplyMembers (pgUpsertTeam team db).2 sched.Members
          (pgUpsertTeam team db).1).2.lookup (sched.Members.headD "")).getD 0), 0⟩, ?_, by simp⟩
      rw [hrot]
      exact List.mem_append_right _ (List.mem_singleton.mpr rfl)
    · exact hwin
  -- the query's schedule lookup finds exactly the fresh row
  have hfindS : (pgApply db team sched).schedules.find?
      (fun srow => srow.teamId == trow.id &&
        pgSchedActive (pgApply db team sched) at'.weekday.toNat at'.tod srow) =
      some ⟨(pgApplyMembers (pgUpsertTeam team db).2 sched.Members
          (pgUpsertTeam team db).1).1.nextId,
        (pgUpsertTeam team db).2, sched.Name, trunc sched.Start, trunc sched.End, "UTC"⟩ := by
    rw [hscheds, List.find?_append]
    have hleft : db.schedules.find?
        (fun srow => srow.teamId == trow.id &&
          pgSchedActive (pgApply db team sched) at'.weekday.toNat at'.tod srow) = none := by
      apply List.find?_eq_none.mpr
      intro srow hsrow
      rw [hold srow hsrow, Bool.and_false]
      simp
    rw [hleft]
    simp [htrowid, hactive]
  -- the first member's id and user row
  have hhead : sched.Members.headD "" = m0 := by rw [hM]; rfl
  have hlookup : (pgApplyMembers (pgUpsertTeam team db).2 sched.Members
      (pgUpsertTeam team db).1).2.lookup m0 =
      some (pgUpsertUser m0 (pgUpsertTeam team db).1).2 := by
    rw [hM]
    exact pgApplyMembers_ids_head (pgUpsertTeam team db).2 m0 rest (pgUpsertTeam team db).1
  have hmem_ids : (m0, (pgUpsertUser m0 (pgUpsertTeam team db).1).2) ∈
      (pgApplyMembers (pgUpsertTeam team db).2 sched.Members (pgUpsertTeam team db).1).2 := by
    rw [hM]
    simp [pgApplyMembers]
  obtain ⟨u, hu, hid, hname⟩ := pgApplyMembers_ids_sound (pgUpsertTeam team db).2
    sched.Members (pgUpsertTeam team db).1 _ hmem_ids
  have hnodup : ((pgApplyMembers (pgUpsertTeam team db).2 sched.Members
      (pgUpsertTeam team db).1).1.users.map UserRow.id).Nodup := by
    refine (pgApplyMembers_wf (pgUpsertTeam team db).2 sched.Members
      (pgUpsertTeam team db).1 ?_ ?_).1
    · rw [(pgUpsertTeam_frame team db).1]
      exact hwf.users_nodup
    · rw [(pgUpsertTeam_frame team db).1]
      intro v hv
      exact Nat.lt_of_lt_of_le (hwf.users_lt v hv) (pgUpsertTeam_nextId_le team db)
  have hfindU : (pgApplyMembers (pgUpsertTeam team db).2 sched.Members
      (pgUpsertTeam team db).1).1.users.find?
        (fun x => x.id == (pgUpsertUser m0 (pgUpsertTeam team db).1).2) = some u := by
    rw [← hid]
    exact find?_user_by_id _ hnodup u hu
  -- assemble the query
  simp only [PostgresStorage.GetCurrentOncall, hfindT', hfindS, hfindR, hhead, hlookup,
    Option.getD_some, pgApply_users, hfindU, Option.map_some', hname]

/-- C5: durable rotation state is initialized at position 0 on the first
member.  Part one: in every database reachable by fault-free `AddSchedule`
calls, every rotation row sits at position 0 and designates exactly the
user of its schedule's position-0 member row (no operation ever advances
it).  Part two: after adding a schedule with first member `m0` to a
reachable database, `GetCurrentOncall` at any instant matching the new
schedule (and matching no previously stored schedule row) answers `m0`. -/
theorem c5_durable_position_zero :
    (∀ ops : List (String × Schedule), RotationInit (pgRun ops)) ∧
    (∀ (ops : List (String × Schedule)) (team : String) (sched : Schedule)
        (at' : Instant) (m0 : String) (rest : List String),
      sched.Members = m0 :: rest →
      at'.weekday ∈ sched.Days →
      pgWindowHit (trunc sched.Start) (trunc sched.End) at'.tod = true →
      (∀ srow ∈ (pgRun ops).schedules,
        pgSchedActive ((PostgresStorage.AddSchedule noFault (pgRun ops) team sched).1)
          at'.weekday.toNat at'.tod srow = false) →
      PostgresStorage.GetCurrentOncall
        ((PostgresStorage.AddSchedule noFault (pgRun ops) team sched).1) team at' =
        (m0, true, none)) := by
  constructor
  · intro ops
    exact (wf_run ops).2
  · intro ops team sched at' m0 rest hM hday hwin hold
    have hstep : (PostgresStorage.AddSchedule noFault (pgRun ops) team sched).1 =
        pgApply (pgRun ops) team sched := by rw [addSchedule_noFault]
    rw [hstep] at hold ⊢
    exact pg_oncall_fresh (pgRun ops) team sched at' m0 rest (wf_run ops).1 hM hday hwin hold

/-- C5 witness: concretely, the single-add run initializes rotation state
at position 0, and a freshly added one-schedule team resolves a matching
Monday instant to its first member Bob. -/
theorem c5_witness :
    RotationInit (pgRun [("backend-team", exSched)]) ∧
    PostgresStorage.GetCurrentOncall
      ((PostgresStorage.AddSchedule noFault (pgRun []) "ops" schedBob).1) "ops" exMonday10 =
      ("Bob", true, none) :=
  ⟨c5_durable_position_zero.1 [("backend-team", exSched)],
   c5_durable_position_zero.2 [] "ops" schedBob exMonday10 "Bob" [] rfl (by decide)
     (by decide) (by decide)⟩

theorem runStmt_ok {α : Type} {faults : Nat → Bool} {tx : Tx} {stmt : DB → DB × α}
    {msg : String} {r : Tx × α} (h : runStmt faults tx stmt msg = .ok r) :
    r = (⟨(stmt tx.db).1, tx.ctr + 1⟩, (stmt tx.db).2) := by
  unfold runStmt at h
  split at h
  · exact Except.noConfusion h
  · exact (Except.ok.inj h).symm

theorem pgAddMembers_ok (faults : Nat → Bool) (teamId : Nat) (ms : List String) :
    ∀ (tx : Tx) (r : Tx × List (String × Nat)),
      pgAddMembers faults teamId ms tx = .ok r →
      r.1.db = (pgApplyMembers teamId ms tx.db).1 ∧
        r.2 = (pgApplyMembers teamId ms tx.db).2 := by
  induction ms with
  | nil =>
    intro tx r h
    simp only [pgAddMembers] at h
    obtain rfl := Except.ok.inj h
    exact ⟨rfl, rfl⟩
  | cons m rest ih =>
    intro tx r h
    simp only [pgAddMembers, bind, Except.bind] at h
    split at h
    · exact Except.noConfusion h
    · rename_i v1 heq1
      obtain rfl := runStmt_ok heq1
      split at h
      · exact Except.noConfusion h
      · rename_i v2 heq2
        obtain rfl := runStmt_ok heq2
        split at h
        · exact Except.noConfusion h
        · rename_i v3 heq3
          obtain ⟨hdb, hids⟩ := ih _ _ heq3
          obtain rfl := Except.ok.inj h
          constructor
          · simp only [pgApplyMembers]
            exact hdb
          · simp only [pgApplyMembers]
            rw [hids]

theorem pgAddDays_ok (faults : Nat → Bool) (scheduleId : Nat) (days : List Weekday) :
    ∀ (tx tx' : Tx), pgAddDays faults scheduleId days tx = .ok tx' →
      tx'.db = pgApplyDays scheduleId days tx.db := by
  induction days with
  | nil =>
    intro tx tx' h
    simp only [pgAddDays] at h
    obtain rfl := Except.ok.inj h
    rfl
  | cons d rest ih =>
    intro tx tx' h
    simp only [pgAddDays, bind, Except.bind] at h
    split at h
    · exact Except.noConfusion h
    · rename_i v heq
      obtain rfl := runStmt_ok heq
      simpa [pgApplyDays] using ih _ _ h

theorem pgAddPositions_ok (faults : Nat → Bool) (scheduleId : Nat)
    (userIds : List (String × Nat)) (ms : List String) :
    ∀ (position : Nat) (tx tx' : Tx),
      pgAddPositions faults scheduleId userIds position ms tx = .ok tx' →
      tx'.db = pgApplyPositions scheduleId userIds position ms tx.db := by
  induction ms with
  | nil =>
    intro position tx tx' h
    simp only [pgAddPositions] at h
    obtain rfl := Except.ok.inj h
    rfl
  | cons m rest ih =>
    intro position tx tx' h
    simp only [pgAddPositions, bind, Except.bind] at h
    split at h
    · exact Except.noConfusion h
    · rename_i v heq
      obtain rfl := runStmt_ok heq
      simpa [pgApplyPositions] using ih _ _ _ h

theorem pgAddScheduleTx_ok (faults : Nat → Bool) (db : DB) (t : String) (sch : Schedule)
    (tx : Tx) (h : pgAddScheduleTx faults db t sch = .ok tx) :
    tx.db = pgApply db t sch := by
  simp only [pgAddScheduleTx, bind, Except.bind] at h
  split at h
  · exact Except.noConfusion h
  · rename_i v1 heq1
    obtain rfl := runStmt_ok heq1
    split at h
    · exact Except.noConfusion h
    · rename_i v2 heq2
      obtain ⟨hdb2, hids2⟩ := pgAddMembers_ok faults _ _ _ _ heq2
      split at h
      · exact Except.noConfusion h
      · rename_i v3 heq3
        obtain rfl := runStmt_ok heq3
        split at h
        · exact Except.noConfusion h
        · rename_i v4 heq4
          have hdb4 := pgAddDays_ok faults _ _ _ _ heq4
          split at h
          · exact Except.noConfusion h
          · rename_i v5 heq5
            have hdb5 := pgAddPositions_ok faults _ _ _ _ _ _ heq5
            by_cases hlen : sch.Members.length > 0
            · simp only [hlen, if_true, bind, Except.bind, pure, Except.pure] at h
              split at h
              · exact Except.noConfusion h
              · rename_i v6 heq6
                obtain rfl := runStmt_ok heq6
                split at h
                · exact Except.noConfusion h
                · rename_i v7 heq7
                  obtain rfl := runStmt_ok heq7
                  obtain rfl := Except.ok.inj h
                  simp only [pgApply, hlen, if_true]
                  rw [hdb5, hdb4, hdb2, hids2]
            · simp only [hlen, if_false, bind, Except.bind, pure, Except.pure] at h
              split at h
              · exact Except.noConfusion h
              · rename_i v6 heq6
                obtain rfl := runStmt_ok heq6
                obtain rfl := Except.ok.inj h
                simp only [pgApply, hlen, if_false]
                rw [hdb5, hdb4, hdb2, hids2]

theorem pgApply_fullyVisible (db : DB) (team : String) (sched : Schedule) :
    scheduleFullyVisible (pgApply db team sched) team sched := by
  obtain ⟨trow, hfindT, htrowid⟩ := pgUpsertTeam_find team db
  refine ⟨trow, ?_, ?_, ⟨(pgApplyMembers (pgUpsertTeam team db).2 sched.Members
      (pgUpsertTeam team db).1).1.nextId,
    (pgUpsertTeam team db).2, sched.Name, trunc sched.Start, trunc sched.End, "UTC"⟩,
    ?_, htrowid.symm, rfl, rfl, rfl, ?_, ?_, ?_, ?_⟩
  · rw [pgApply_teams]
    exact List.mem_of_find?_eq_some hfindT
  · have hb := List.find?_some hfindT
    exact eq_of_beq hb
  · rw [pgApply_schedules]
    exact List.mem_append_right _ (List.mem_singleton.mpr rfl)
  · intro d hd
    rw [pgApply_scheduleDays]
    exact List.mem_append_right _ (List.mem_map_of_mem _ hd)
  · intro m hm
    obtain ⟨uid, huid⟩ := pgApplyMembers_ids_keys (pgUpsertTeam team db).2 sched.Members
      (pgUpsertTeam team db).1 m hm
    obtain ⟨u, hu, _, hname⟩ := pgApplyMembers_ids_sound (pgUpsertTeam team db).2
      sched.Members (pgUpsertTeam team db).1 _ huid
    refine ⟨u, ?_, hname⟩
    rw [pgApply_users]
    exact hu
  · intro i hi
    obtain ⟨row, hrow, h1, h2⟩ := posRows_positions
      (pgApplyMembers (pgUpsertTeam team db).2 sched.Members
        (pgUpsertTeam team db).1).1.nextId
      (pgApplyMembers (pgUpsertTeam team db).2 sched.Members (pgUpsertTeam team db).1).2
      sched.Members 0 i hi
    refine ⟨row, ?_, h1, by simpa using h2⟩
    rw [pgApply_scheduleMembers]
    exact List.mem_append_right _ hrow
  · intro hne
    have hlen : sched.Members.length > 0 := by
      cases hMm : sched.Members with
      | nil => exact absurd hMm hne
      | cons a b => simp
    refine ⟨⟨(pgApplyMembers (pgUpsertTeam team db).2 sched.Members
        (pgUpsertTeam team db).1).1.nextId,
      some (((pgApplyMembers (pgUpsertTeam team db).2 sched.Members
        (pgUpsertTeam team db).1).2.lookup (sched.Members.headD "")).getD 0), 0⟩,
      ?_, rfl, rfl⟩
    rw [pgApply_rotations, if_pos hlen]
    exact List.mem_append_right _ (List.mem_singleton.mpr rfl)

/-- C8: the durable `AddSchedule` is all-or-nothing.  If any statement of
the transaction fails (whatever the injected fault set), the visible
database is exactly the one before the call; if the call succeeds, the
visible database is the full committed write, in which the schedule is
completely visible: team row, schedule row with its window bounds, one
day row per weekday, one user row per member, one member row at every
rotation position, and the position-0 rotation row when members exist. -/
theorem c8_durable_addschedule_atomic (faults : Nat → Bool) (db : DB) (team : String)
    (sched : Schedule) :
    ((PostgresStorage.AddSchedule faults db team sched).2.isSome = true →
      (PostgresStorage.AddSchedule faults db team sched).1 = db) ∧
    ((PostgresStorage.AddSchedule faults db team sched).2 = none →
      (PostgresStorage.AddSchedule faults db team sched).1 = pgApply db team sched ∧
      scheduleFullyVisible (PostgresStorage.AddSchedule faults db team sched).1
        team sched) := by
  cases htx : pgAddScheduleTx faults db team sched with
  | error e =>
    have hAS : PostgresStorage.AddSchedule faults db team sched = (db, some e) := by
      unfold PostgresStorage.AddSchedule
      rw [htx]
    rw [hAS]
    exact ⟨fun _ => rfl, fun hnone => Option.noConfusion hnone⟩
  | ok tx =>
    have hAS : PostgresStorage.AddSchedule faults db team sched = (tx.db, none) := by
      unfold PostgresStorage.AddSchedule
      rw [htx]
    rw [hAS]
    have hdb := pgAddScheduleTx_ok faults db team sched tx htx
    exact ⟨fun hsome => Bool.noConfusion hsome,
      fun _ => ⟨hdb, by simpa only [hdb] using pgApply_fullyVisible db team sched⟩⟩

/-- C8 witness: a fault on the very first statement leaves the empty
database untouched, while the fault-free call commits the fully visible
schedule. -/
theorem c8_witness :
    (PostgresStorage.AddSchedule faultAt0 DB.empty "ops" schedBob).1 = DB.empty ∧
    ((PostgresStorage.AddSchedule noFault DB.empty "ops" schedBob).1 =
        pgApply DB.empty "ops" schedBob ∧
      scheduleFullyVisible (PostgresStorage.AddSchedule noFault DB.empty "ops" schedBob).1
        "ops" schedBob) :=
  ⟨(c8_durable_addschedule_atomic faultAt0 DB.empty "ops" schedBob).1 (by decide),
   (c8_durable_addschedule_atomic noFault DB.empty "ops" schedBob).2 (by decide)⟩

/-- C1 (amended): boundary semantics per implementation.  For a schedule
with whole-minute bounds (seconds zero, as the kitchen-clock parser
produces) whose window is non-empty, on an active weekday: the instant
exactly at start-of-window is inside the window for the volatile store's
`GetCurrentOncall`, the handler's `GetSchedule` and the durable store's
`GetCurrentOncall`; the instant exactly at end-of-window is inside for the
handler and the durable store, but the volatile store's `GetCurrentOncall`
treats the end bound as exclusive and answers not-found there. -/
theorem c1_boundary_semantics (team : String) (sched : Schedule) (wd : Weekday)
    (m0 : String) (rest : List String)
    (hteam : team ≠ "")
    (hM : sched.Members = m0 :: rest)
    (hday : wd ∈ sched.Days)
    (hsec0 : sched.Start.sec = 0) (hsec1 : sched.End.sec = 0)
    (hlt : todBefore ⟨sched.Start.hour, sched.Start.minute, 0, 0⟩
      ⟨sched.End.hour, sched.End.minute, 0, 0⟩ = true) :
    MemoryStorage.GetCurrentOncall (fun k => if k = team then some ⟨[sched]⟩ else none)
      team ⟨wd, ⟨sched.Start.hour, sched.Start.minute, 0, 0⟩⟩ = (m0, true, none) ∧
    Handler.GetSchedule (fun k => if k = team then some ⟨[sched]⟩ else none)
      team ⟨wd, ⟨sched.Start.hour, sched.Start.minute, 0, 0⟩⟩ = GetResp.ok sched.Members ∧
    PostgresStorage.GetCurrentOncall (pgRun [(team, sched)])
      team ⟨wd, ⟨sched.Start.hour, sched.Start.minute, 0, 0⟩⟩ = (m0, true, none) ∧
    Handler.GetSchedule (fun k => if k = team then some ⟨[sched]⟩ else none)
      team ⟨wd, ⟨sched.End.hour, sched.End.minute, 0, 0⟩⟩ = GetResp.ok sched.Members ∧
    PostgresStorage.GetCurrentOncall (pgRun [(team, sched)])
      team ⟨wd, ⟨sched.End.hour, sched.End.minute, 0, 0⟩⟩ = (m0, true, none) ∧
    MemoryStorage.GetCurrentOncall (fun k => if k = team then some ⟨[sched]⟩ else none)
      team ⟨wd, ⟨sched.End.hour, sched.End.minute, 0, 0⟩⟩ = ("", false, none) := by
  have key : sched.Start.hour * 60 + sched.Start.minute <
      sched.End.hour * 60 + sched.End.minute := by
    simp only [todBefore, TimeOfDay.toNanos, decide_eq_true_eq] at hlt
    omega
  have hcont : sched.Days.contains wd = true := List.elem_iff.mpr hday
  have hpgRun : pgRun [(team, sched)] = pgApply DB.empty team sched := by
    show (PostgresStorage.AddSchedule noFault DB.empty team sched).1 = _
    rw [addSchedule_noFault]
  -- window booleans at the start boundary
  have hmemS : memWindowHit sched ⟨sched.Start.hour, sched.Start.minute, 0, 0⟩ = true := by
    simp [memWindowHit, todEqual, hsec0]
  have hhndS : handlerWindowHit sched ⟨sched.Start.hour, sched.Start.minute, 0, 0⟩ = true := by
    simp only [handlerWindowHit, todAfter, todBefore, todEqual, TimeOfDay.toNanos]
    simp only [Bool.or_eq_true, Bool.and_eq_true, decide_eq_true_eq, beq_iff_eq,
      or_true, true_or, true_and, and_true]
    omega
  have hpgS : pgWindowHit (trunc sched.Start) (trunc sched.End)
      ⟨sched.Start.hour, sched.Start.minute, 0, 0⟩ = true := by
    simp only [pgWindowHit, trunc, TimeOfDay.secOfDay, hsec0, hsec1, Bool.and_eq_true,
      decide_eq_true_eq]
    omega
  -- window booleans at the end boundary
  have hhndE : handlerWindowHit sched ⟨sched.End.hour, sched.End.minute, 0, 0⟩ = true := by
    simp only [handlerWindowHit, todAfter, todBefore, todEqual, TimeOfDay.toNanos]
    simp only [Bool.or_eq_true, Bool.and_eq_true, decide_eq_true_eq, beq_iff_eq,
      or_true, true_or, true_and, and_true]
    omega
  have hpgE : pgWindowHit (trunc sched.Start) (trunc sched.End)
      ⟨sched.End.hour, sched.End.minute, 0, 0⟩ = true := by
    simp only [pgWindowHit, trunc, TimeOfDay.secOfDay, hsec0, hsec1, Bool.and_eq_true,
      decide_eq_true_eq]
    omega
  have hmemE : memWindowHit sched ⟨sched.End.hour, sched.End.minute, 0, 0⟩ = false := by
    simp only [memWindowHit, todAfter, todBefore, todEqual, TimeOfDay.toNanos, hsec0, hsec1]
    simp only [Bool.or_eq_false_iff, Bool.and_eq_false_iff]
    constructor
    · right
      simp only [decide_eq_false_iff_not]
      omega
    · simp only [beq_eq_false_iff_ne]
      omega
  have hstore : (fun k => if k = team then some (⟨[sched]⟩ : Team) else none) team =
      some ⟨[sched]⟩ := by simp
  have hold : ∀ srow ∈ DB.empty.schedules,
      pgSchedActive (pgApply DB.empty team sched) wd.toNat
        ⟨sched.Start.hour, sched.Start.minute, 0, 0⟩ srow = false := by
    intro srow hs
    simp [DB.empty] at hs
  have holdE : ∀ srow ∈ DB.empty.schedules,
      pgSchedActive (pgApply DB.empty team sched) wd.toNat
        ⟨sched.End.hour, sched.End.minute, 0, 0⟩ srow = false := by
    intro srow hs
    simp [DB.empty] at hs
  refine ⟨?_, ?_, ?_, ?_, ?_, ?_⟩
  · simp [MemoryStorage.GetCurrentOncall, hstore, memOncallLoop, memSchedMatch,
      dayMatches, hcont, hday, hmemS, hM]
  · simp [Handler.GetSchedule, hteam, hstore, handlerFindLoop, hcont, hday, hhndS]
  · rw [hpgRun]
    exact pg_oncall_fresh DB.empty team sched _ m0 rest wf_empty hM hday hpgS hold
  · simp [Handler.GetSchedule, hteam, hstore, handlerFindLoop, hcont, hday, hhndE]
  · rw [hpgRun]
    exact pg_oncall_fresh DB.empty team sched _ m0 rest wf_empty hM hday hpgE holdE
  · simp [MemoryStorage.GetCurrentOncall, hstore, memOncallLoop, memSchedMatch,
      dayMatches, hcont, hday, hmemE]

/-- C1 witness: Bob's Monday 9:00–17:00 schedule concretely shows all six
boundary outcomes. -/
theorem c1_witness :
    MemoryStorage.GetCurrentOncall (fun k => if k = "ops" then some ⟨[schedBob]⟩ else none)
      "ops" ⟨.monday, ⟨9, 0, 0, 0⟩⟩ = ("Bob", true, none) ∧
    Handler.GetSchedule (fun k => if k = "ops" then some ⟨[schedBob]⟩ else none)
      "ops" ⟨.monday, ⟨9, 0, 0, 0⟩⟩ = GetResp.ok schedBob.Members ∧
    PostgresStorage.GetCurrentOncall (pgRun [("ops", schedBob)])
      "ops" ⟨.monday, ⟨9, 0, 0, 0⟩⟩ = ("Bob", true, none) ∧
    Handler.GetSchedule (fun k => if k = "ops" then some ⟨[schedBob]⟩ else none)
      "ops" ⟨.monday, ⟨17, 0, 0, 0⟩⟩ = GetResp.ok schedBob.Members ∧
    PostgresStorage.GetCurrentOncall (pgRun [("ops", schedBob)])
      "ops" ⟨.monday, ⟨17, 0, 0, 0⟩⟩ = ("Bob", true, none) ∧
    MemoryStorage.GetCurrentOncall (fun k => if k = "ops" then some ⟨[schedBob]⟩ else none)
      "ops" ⟨.monday, ⟨17, 0, 0, 0⟩⟩ = ("", false, none) :=
  c1_boundary_semantics "ops" schedBob .monday "Bob" [] (by decide) rfl (by decide)
    rfl rfl (by decide)
